import Mathlib

/-!
Verification of the structure-aware document chunking engine of the
azure-rag-financial-system repository (src/src/rag/azure_rag_pipeline.py,
class DocumentProcessor), as a shallow embedding over `List Char` strings.

Python strings are modelled as `List Char` (`Str`), Python dicts holding the
chunk records as association lists over a small value type (`PyVal`), and the
external tiktoken tokenizer as an abstract pair of functions (`Tokenizer`).
Every function below is translated from the Python source; recursions that
jump forward in the string carry an explicit fuel argument (instantiated with
the string length, which always suffices) so that all definitions reduce in
the kernel.
-/

/-- Python `str` modelled as a list of characters. -/
abbrev Str := List Char

/-- The whitespace predicate used by `str.strip`, `str.split()` and the
`\s` regex class (restricted to the four common ASCII whitespace chars). -/
def isWS (c : Char) : Bool :=
  c == ' ' || c == '\t' || c == '\n' || c == '\r'

/-- Python `str.strip()`: drop leading and trailing whitespace. -/
def trimL (s : Str) : Str :=
  ((s.dropWhile isWS).reverse.dropWhile isWS).reverse

/-- Helper for `wordsOf`: scan with the current (reversed) word. -/
def wordsAux : Str → Str → List Str
  | [], cur => if cur = [] then [] else [cur.reverse]
  | c :: rest, cur =>
    if isWS c then
      if cur = [] then wordsAux rest [] else cur.reverse :: wordsAux rest []
    else
      wordsAux rest (c :: cur)

/-- The whitespace-separated words of a string (Python `str.split()`),
used to state `words up to whitespace normalization` properties. -/
def wordsOf (s : Str) : List Str := wordsAux s []

/-- Helper for `splitCh`: accumulate the current (reversed) piece. -/
def splitChAux (c : Char) : Str → Str → List Str
  | [], cur => [cur.reverse]
  | d :: rest, cur =>
    if d = c then cur.reverse :: splitChAux c rest [] else splitChAux c rest (d :: cur)

/-- Python `s.split(c)` for a single-character separator (keeps empties). -/
def splitCh (c : Char) (s : Str) : List Str := splitChAux c s []

/-- Helper for `splitNN`. -/
def splitNNAux : Str → Str → List Str
  | [], cur => [cur.reverse]
  | '\n' :: '\n' :: rest, cur => cur.reverse :: splitNNAux rest []
  | c :: rest, cur => splitNNAux rest (c :: cur)

/-- Python `s.split('\n\n')` (non-overlapping, left to right, keeps empties). -/
def splitNN (s : Str) : List Str := splitNNAux s []

/-- Join a list of strings with a separator (Python `sep.join(parts)`). -/
def joinSep (sep : Str) : List Str → Str
  | [] => []
  | [x] => x
  | x :: y :: xs => x ++ sep ++ joinSep sep (y :: xs)

/-- Join each part with a trailing newline appended (the shape of the
accumulation buffers `current_chunk += row + '\n'`). -/
def joinNL (parts : List Str) : Str := (parts.map (fun p => p ++ ['\n'])).flatten

/-- Leftmost occurrence of `sep` in `s`: returns the text before and after it. -/
def findSub (sep : Str) : Str → Option (Str × Str)
  | [] => if sep.isEmpty then some ([], []) else none
  | c :: rest =>
    if sep.isPrefixOf (c :: rest) then some ([], (c :: rest).drop sep.length)
    else (findSub sep rest).map (fun p => (c :: p.1, p.2))

/-- Python `sep in s` (substring containment). -/
def containsSub (sep : Str) (s : Str) : Bool := (findSub sep s).isSome

/-- Number of occurrences of a nonempty pattern (counted at every start
position, as the suffix list makes explicit). -/
def countSub (sep : Str) (s : Str) : Nat :=
  (s.tails).countP (fun t => sep.isPrefixOf t)

/-- Python `int(·)` on a string of ASCII digits. -/
def natFromDigits (s : Str) : Nat :=
  s.foldl (fun n c => 10 * n + (c.toNat - 48)) 0

/-- Render a natural number in decimal (Python `str(int)` for the
nonnegative values that occur here). -/
def natToStr (n : Nat) : Str := (Nat.repr n).data

/-- Render an integer in decimal (Python `str(int)`). -/
def intToStr (i : Int) : Str := (Int.repr i).data

/-! ## Values, dicts, tokenizer -/

/-- The values stored in the chunk / metadata dicts: strings and ints. -/
inductive PyVal where
  | s : Str → PyVal
  | n : Int → PyVal
deriving DecidableEq, Repr

/-- Python `str(value)`, as used in the f-string building chunk ids. -/
def pyStr : PyVal → Str
  | .s v => v
  | .n i => intToStr i

/-- A Python dict modelled as an insertion-ordered association list
(keys written as Lean string literals). -/
abbrev Dict := List (String × PyVal)

/-- First-binding lookup (Python `d[k]` / `d.get(k)`). -/
def dget (d : Dict) (k : String) : Option PyVal :=
  match d with
  | [] => none
  | (k', v) :: rest => if k = k' then some v else dget rest k

/-- Python `d.get(k, default)`. -/
def dgetD (d : Dict) (k : String) (v₀ : PyVal) : PyVal := (dget d k).getD v₀

/-- Python `d[k] = v`: replace the first binding in place, else append
(matches dict insertion-order semantics). -/
def dset (d : Dict) (k : String) (v : PyVal) : Dict :=
  match d with
  | [] => [(k, v)]
  | (k', v') :: rest => if k = k' then (k', v) :: rest else (k', v') :: dset rest k v

/-- Python `a.update(b)`: set every binding of `b` in `a`, in order. -/
def dupdate (a b : Dict) : Dict := b.foldl (fun d kv => dset d kv.1 kv.2) a

/-- Last-binding lookup; coincides with `dget` when keys are unique, and is
what `dupdate` exposes for duplicated keys. -/
def dgetLast (d : Dict) (k : String) : Option PyVal := dget d.reverse k

/-- The external tokenizer capability (tiktoken in the source): encode text
to token ids and decode back. Only lengths matter to the chunker. -/
structure Tokenizer where
  encode : Str → List Nat
  decode : List Nat → Str

/-- Token count of a string. -/
def tokLen (tok : Tokenizer) (s : Str) : Nat := (tok.encode s).length

/-- A concrete tokenizer instance (one token per character) used to
evaluate the pipeline on concrete inputs. -/
def charTok : Tokenizer where
  encode s := s.map Char.toNat
  decode ts := ts.map Char.ofNat

/-- `DocumentProcessor.__init__`: configuration plus the tokenizer. -/
structure DP where
  chunk_size : Nat := 1000
  chunk_overlap : Nat := 200
  tok : Tokenizer

/-- A section record as built by `_identify_sections`
(`{'title', 'content', 'level', 'type'}`). -/
structure PySection where
  title : Str
  content : Str
  level : Nat
  type : Str
deriving DecidableEq, Repr

/-! ## Section identification and classification -/

/-- `_classify_section_type`: keyword-substring matching on the lowered title. -/
def classify_section_type (title : Str) : Str :=
  let tl := title.map Char.toLower
  let has := fun (kws : List String) => kws.any (fun k => containsSub k.data tl)
  if has ["financial", "statement", "income", "balance", "cash flow"] then
    "financial".data
  else if has ["risk", "factor"] then "risk".data
  else if has ["business", "overview", "operation"] then "business".data
  else if has ["legal", "proceeding", "litigation"] then "legal".data
  else if has ["management", "discussion", "analysis", "md&a"] then "mda".data
  else "general".data

/-- `line.split('SECTION_')[1].split(':')[0]` for a line starting with
`SECTION_`: the text between the first occurrence and the next occurrence
(or end), cut at the first `:`. -/
def levelMatch (l : Str) : Str :=
  let rest := l.drop 8
  let seg := match findSub "SECTION_".data rest with
    | some (a, _) => a
    | none => rest
  seg.takeWhile (fun c => c ≠ ':')

/-- `line.split(':', 1)[1]`: everything after the first colon. -/
def afterFirstColon (l : Str) : Str := (l.dropWhile (fun c => c ≠ ':')).drop 1

/-- The line scan of `_identify_sections`: state is the flushed sections,
the accumulated content, and the current title/level. -/
def identifyLoop : List Str → List PySection → Str → Str → Nat → List PySection
  | [], secs, cur, title, lvl =>
    if trimL cur ≠ [] then
      secs ++ [⟨title, trimL cur, lvl, classify_section_type title⟩]
    else secs
  | l₀ :: ls, secs, cur, title, lvl =>
    let l := trimL l₀
    if "SECTION_".data.isPrefixOf l then
      let secs' :=
        if trimL cur ≠ [] then
          secs ++ [⟨title, trimL cur, lvl, classify_section_type title⟩]
        else secs
      let lm := levelMatch l
      let lvl' := if lm ≠ [] ∧ lm.all Char.isDigit then natFromDigits lm else 1
      let title' := if l.any (fun c => c = ':') then trimL (afterFirstColon l) else l
      identifyLoop ls secs' [] title' lvl'
    else if "=".data.isPrefixOf l then identifyLoop ls secs cur title lvl
    else if l ≠ [] then identifyLoop ls secs (cur ++ l ++ ['\n']) title lvl
    else identifyLoop ls secs cur title lvl

/-- `_identify_sections`: scan the marked text; if no section was ever
flushed, produce the single fallback section. -/
def identify_sections (text : Str) : List PySection :=
  let secs := identifyLoop (splitCh '\n' text) [] [] [] 0
  if secs = [] then
    [⟨"Document Content".data, text, 1, "general".data⟩]
  else secs

/-! ## Table-span scanning (the `[FINANCIAL_TABLE]` regex calls) -/

/-- The opening marker. -/
def OPEN : Str := "[FINANCIAL_TABLE]".data

/-- The closing marker. -/
def CLOSE : Str := "[/FINANCIAL_TABLE]".data

/-- `re.findall(r'\[FINANCIAL_TABLE\](.*?)\[/FINANCIAL_TABLE\]', s, DOTALL)`:
leftmost non-greedy matching. Fuelled; `s.length` fuel always suffices. -/
def tableSpansF : Nat → Str → List Str
  | 0, _ => []
  | f + 1, s =>
    match findSub OPEN s with
    | none => []
    | some (_, rest) =>
      match findSub CLOSE rest with
      | none => []
      | some (mid, rest2) => mid :: tableSpansF f rest2

/-- The table spans of a string (`re.findall` above). -/
def tableSpans (s : Str) : List Str := tableSpansF s.length s

/-- `re.sub(r'\[FINANCIAL_TABLE\].*?\[/FINANCIAL_TABLE\]', '', s, DOTALL)`. -/
def removeTableSpansF : Nat → Str → Str
  | 0, s => s
  | f + 1, s =>
    match findSub OPEN s with
    | none => s
    | some (a, rest) =>
      match findSub CLOSE rest with
      | none => s
      | some (_, rest2) => a ++ removeTableSpansF f rest2

/-- The section body with every matched table span removed (`re.sub` above). -/
def removeTableSpans (s : Str) : Str := removeTableSpansF s.length s

/-- The full decomposition the two regex calls induce: the segments outside
matches and the captured spans, with `s` reassembling exactly from them. -/
def tableSplitF : Nat → Str → List Str × List Str
  | 0, s => ([s], [])
  | f + 1, s =>
    match findSub OPEN s with
    | none => ([s], [])
    | some (a, rest) =>
      match findSub CLOSE rest with
      | none => ([s], [])
      | some (mid, rest2) =>
        let p := tableSplitF f rest2
        (a :: p.1, mid :: p.2)

/-- Segments/spans decomposition of a string. -/
def tableSplit (s : Str) : List Str × List Str := tableSplitF s.length s

/-- Reassemble segments and spans with the markers back into the string. -/
def reassemble : List Str → List Str → Str
  | seg :: segs, m :: spans => seg ++ OPEN ++ m ++ CLOSE ++ reassemble segs spans
  | segs, [] => segs.flatten
  | [], _ :: _ => []

/-! ## Sentence splitting (`re.split(r'(?<=[.!?])\s+(?=[A-Z])', p)`) -/

/-- Does a sentence break follow here: a nonempty whitespace run whose next
character is an uppercase letter? -/
def sentBreakAfter (rest : Str) : Bool :=
  decide (rest.takeWhile isWS ≠ []) &&
    (match rest.dropWhile isWS with
     | d :: _ => d.isUpper
     | [] => false)

/-- The sentence scan: `cur` is the reversed current sentence. Fuelled;
`s.length` fuel always suffices. -/
def sentGoF : Nat → Str → Str → List Str
  | 0, _, cur => [cur.reverse]
  | _ + 1, [], cur => [cur.reverse]
  | f + 1, c :: rest, cur =>
    if (c = '.' ∨ c = '!' ∨ c = '?') ∧ sentBreakAfter rest then
      (cur.reverse ++ [c]) :: sentGoF f (rest.dropWhile isWS) []
    else
      sentGoF f rest (c :: cur)

/-- `re.split(r'(?<=[.!?])\s+(?=[A-Z])', p)`: split after `.`/`!`/`?`
followed by whitespace and an uppercase letter, consuming the whitespace. -/
def splitSentences (p : Str) : List Str := sentGoF p.length p []

/-! ## Chunk construction -/

/-- The per-table `chunk_metadata` literal of `_chunk_financial_tables`. -/
def cmTable (sec : PySection) (i : Nat) : Dict :=
  [("section_title", .s sec.title), ("section_level", .n sec.level),
   ("section_type", .s sec.type), ("content_type", .s "financial_table".data),
   ("table_index", .n i)]

/-- The `chunk_metadata` literal of `_chunk_regular_content`. -/
def cmText (sec : PySection) : Dict :=
  [("section_title", .s sec.title), ("section_level", .n sec.level),
   ("section_type", .s sec.type), ("content_type", .s "text".data)]

/-- `_create_chunk`: the chunk dict holds the trimmed text and the token
count of the text argument as passed, then merges the metadata and derives
the id from `company`/`year`/`chunk_id` (the latter defaulting to 0). -/
def create_chunk (dp : DP) (text : Str) (metadata : Dict) : Dict :=
  let chunk : Dict :=
    [("text", .s (trimL text)), ("token_count", .n (tokLen dp.tok text))]
  let chunk := if metadata.isEmpty then chunk else dupdate chunk metadata
  dset chunk "id" (.s
    (pyStr (dgetD metadata "company" (.s "unknown".data)) ++ "_".data ++
     pyStr (dgetD metadata "year" (.s "unknown".data)) ++ "_".data ++
     pyStr (dgetD metadata "chunk_id" (.n 0))))

/-- The row accumulation loop of `_chunk_financial_tables` (the oversized
table branch): flush when adding the next row would pass the bound. -/
def rowsLoop (dp : DP) (cm : Dict) : List Str → Str → Nat → List Dict
  | [], cur, _ =>
    if trimL cur ≠ [] then [create_chunk dp (trimL cur) cm] else []
  | r :: rs, cur, curTok =>
    let rt := tokLen dp.tok r
    if curTok + rt > dp.chunk_size then
      (if cur ≠ [] then [create_chunk dp (trimL cur) cm] else []) ++
        rowsLoop dp cm rs (r ++ ['\n']) rt
    else
      rowsLoop dp cm rs (cur ++ r ++ ['\n']) (curTok + rt)

/-- `_chunk_financial_tables`: one chunk per fitting table, else row-by-row. -/
def chunk_financial_tables (dp : DP) (content : Str) (sec : PySection)
    (metadata : Dict) : List Dict :=
  ((tableSpans content).enum.map (fun it =>
    let tc := trimL it.2
    if tc = [] then []
    else
      let cm := cmTable sec it.1
      let cm := if metadata.isEmpty then cm else dupdate cm metadata
      if tokLen dp.tok tc ≤ dp.chunk_size then [create_chunk dp tc cm]
      else rowsLoop dp cm (splitCh '\n' tc) [] 0)).flatten

/-- The sentence sub-loop of `_chunk_regular_content`: continues the outer
buffer and token count. -/
def sentLoop (dp : DP) (cm : Dict) :
    List Str → List Dict → Str → Nat → List Dict × Str × Nat
  | [], chunks, cur, ct => (chunks, cur, ct)
  | s :: ss, chunks, cur, ct =>
    let st := tokLen dp.tok s
    if ct + st > dp.chunk_size then
      sentLoop dp cm ss
        (chunks ++ (if cur ≠ [] then [create_chunk dp cur cm] else [])) s st
    else
      sentLoop dp cm ss chunks
        (if cur ≠ [] then cur ++ " ".data ++ s else s) (ct + st)

/-- The paragraph loop of `_chunk_regular_content`. -/
def paraLoop (dp : DP) (cm : Dict) :
    List Str → List Dict → Str → Nat → List Dict
  | [], chunks, cur, _ =>
    chunks ++ (if cur ≠ [] then [create_chunk dp cur cm] else [])
  | p :: ps, chunks, cur, ct =>
    let p' := trimL p
    if p' = [] then paraLoop dp cm ps chunks cur ct
    else
      let pt := tokLen dp.tok p'
      if pt > dp.chunk_size then
        let r := sentLoop dp cm (splitSentences p') chunks cur ct
        paraLoop dp cm ps r.1 r.2.1 r.2.2
      else if ct + pt > dp.chunk_size then
        paraLoop dp cm ps
          (chunks ++ (if cur ≠ [] then [create_chunk dp cur cm] else [])) p' pt
      else
        paraLoop dp cm ps chunks
          (if cur ≠ [] then cur ++ "\n\n".data ++ p' else p') (ct + pt)

/-- `_chunk_regular_content`: paragraph/sentence accumulation over the
blank-line-separated paragraphs. -/
def chunk_regular_content (dp : DP) (content : Str) (sec : PySection)
    (metadata : Dict) : List Dict :=
  let cm := cmText sec
  let cm := if metadata.isEmpty then cm else dupdate cm metadata
  paraLoop dp cm (splitNN content) [] [] 0

/-- `_chunk_section`: table chunks first, then prose on the body with the
matched table spans removed. -/
def chunk_section (dp : DP) (sec : PySection) (metadata : Dict) : List Dict :=
  let content := sec.content
  if containsSub OPEN content then
    let tchunks := chunk_financial_tables dp content sec metadata
    let content := removeTableSpans content
    tchunks ++
      (if trimL content ≠ [] then chunk_regular_content dp content sec metadata
       else [])
  else
    if trimL content ≠ [] then chunk_regular_content dp content sec metadata
    else []

/-- The structure-aware `chunk_text` (the first definition in the class,
shadowed in Python by the later flat definition of the same name). -/
def chunk_text_structured (dp : DP) (text : Str) (metadata : Dict) : List Dict :=
  ((identify_sections text).map (fun sec => chunk_section dp sec metadata)).flatten

/-! ## Metadata extraction and the legacy flat splitter -/

/-- `extract_metadata`: `processed_date` comes from the ambient clock, which
is external; it is passed in as `now`. -/
def extract_metadata (filename now : Str) : Dict :=
  let metadata : Dict := [("filename", .s filename), ("processed_date", .s now)]
  if filename.any (fun c => c = '_') then
    match splitCh '_' filename with
    | p0 :: p1 :: p2 :: _ =>
      dset (dset (dset metadata "company" (.s p0)) "filing_type" (.s p1))
        "year" (.s p2)
    | _ => metadata
  else metadata

/-- Python list slicing `l[a:b]` with int indices. -/
def pySlice (l : List Nat) (a b : Int) : List Nat :=
  let n : Int := l.length
  let na := if a < 0 then max 0 (n + a) else min a n
  let nb := if b < 0 then max 0 (n + b) else min b n
  (l.drop na.toNat).take (nb - na).toNat

/-- A chunk of the legacy flat splitter
(`{'text': ..., 'metadata': ..., 'id': ...}`). -/
structure LegacyChunk where
  text : Str
  metadata : Dict
  id : Str
deriving DecidableEq, Repr

/-- The `while start < len(tokens)` loop of the second (legacy) `chunk_text`
definition, fuelled; `none` means the fuel ran out before the loop exited. -/
def chunkTextLoop (dp : DP) (metadata : Dict) (tokens : List Nat) :
    Nat → Int → Int → Option (List LegacyChunk)
  | 0, start, _ =>
    if start < (tokens.length : Int) then none else some []
  | f + 1, start, cid =>
    if start < (tokens.length : Int) then
      let e := min (start + (dp.chunk_size : Int)) (tokens.length : Int)
      let ctoks := pySlice tokens start e
      let ctext := dp.tok.decode ctoks
      let cmeta := dupdate metadata
        [("chunk_id", .n cid), ("start_token", .n start), ("end_token", .n e),
         ("token_count", .n ctoks.length), ("chunk_text_length", .n ctext.length)]
      let cid_str := pyStr (dgetD metadata "company" (.s "unknown".data)) ++
        "_".data ++ pyStr (dgetD metadata "year" (.s "unknown".data)) ++
        "_".data ++ intToStr cid
      (chunkTextLoop dp metadata tokens f
          (start + (dp.chunk_size : Int) - (dp.chunk_overlap : Int)) (cid + 1)).map
        (fun rest => ⟨ctext, cmeta, cid_str⟩ :: rest)
    else some []

/-- The legacy flat `chunk_text` (the second definition of the name in the
class, hence the one Python keeps and `process_file` invokes). -/
def chunk_text (dp : DP) (fuel : Nat) (text : Str) (metadata : Dict) :
    Option (List LegacyChunk) :=
  chunkTextLoop dp metadata (dp.tok.encode text) fuel 0 0

/-! ## The HTML structural extractor (`extract_text_from_html`)

The parsed HTML tree (BeautifulSoup's output) is modelled as a rose tree;
`id(element)`-based bookkeeping is modelled with tree paths, which identify
nodes uniquely. All recursions over the tree carry a depth fuel `d`; every
theorem instantiates it above the height of the concrete tree involved. -/

/-- A parsed HTML node: an element with a tag name and children, or text. -/
inductive HNode where
  | elem : String → List HNode → HNode
  | txt : Str → HNode

/-- Tag name of a node (empty for text). -/
def HNode.name : HNode → String
  | .elem nm _ => nm
  | .txt _ => ""

/-- `soup(["script", "style"]).decompose()`: drop those subtrees entirely. -/
def removeScriptsD : Nat → List HNode → List HNode
  | 0, _ => []
  | d + 1, ns => ns.filterMap (fun n =>
      match n with
      | .txt s => some (.txt s)
      | .elem nm cs =>
        if nm = "script" ∨ nm = "style" then none
        else some (.elem nm (removeScriptsD d cs)))

/-- `element.get_text(strip=True)`: concatenation of the stripped text
descendants. -/
def getTextStripD : Nat → HNode → Str
  | 0, _ => []
  | _ + 1, .txt s => trimL s
  | d + 1, .elem _ cs => (cs.map (getTextStripD d)).flatten

/-- `element.find_all(names)`: all descendant elements with a matching name,
in document order (the searched node itself is not included). -/
def descAllD : Nat → List String → List HNode → List HNode
  | 0, _, _ => []
  | d + 1, names, cs => (cs.map (fun c =>
      match c with
      | .txt _ => []
      | .elem nm cs' =>
        (if names.contains nm then [c] else []) ++ descAllD d names cs')).flatten

/-- `find_all` on one element. -/
def findAllIn (d : Nat) (names : List String) : HNode → List HNode
  | .txt _ => []
  | .elem _ cs => descAllD d names cs

/-- `_extract_table_text`: header cells joined by `" | "` and a 50-dash rule,
then each `tr`'s `td` texts joined by `" | "`, newline-joined. -/
def extract_table_text (d : Nat) (table : HNode) : Str :=
  let headers := ((findAllIn d ["th"] table).map (getTextStripD d)).filter
    (fun h => h ≠ [])
  let headRows :=
    if headers ≠ [] then [joinSep " | ".data headers, List.replicate 50 '-'] else []
  let dataRows := (findAllIn d ["tr"] table).filterMap (fun r =>
    let cells := (findAllIn d ["td"] r).map (getTextStripD d)
    if cells = [] then none else some (joinSep " | ".data cells))
  joinSep ['\n'] (headRows ++ dataRows)

/-- `_extract_list_text`: each `li` text as a `"- "`-prefixed line. -/
def extract_list_text (d : Nat) (el : HNode) : Str :=
  let items := (findAllIn d ["li"] el).map (getTextStripD d)
  if items ≠ [] then joinSep ['\n'] (items.map (fun i => "- ".data ++ i)) else []

/-- An entry of `soup.find_all([...])`: the node, its path (playing the role
of `id(element)`), and its element ancestors, nearest first. -/
structure Elt where
  path : List Nat
  name : String
  node : HNode
  ancestors : List (List Nat × String)

/-- Document-order (pre-order) element enumeration with paths and ancestors. -/
def preElemsD : Nat → List Nat → List (List Nat × String) → HNode → List Elt
  | 0, _, _, _ => []
  | _ + 1, _, _, .txt _ => []
  | d + 1, p, anc, .elem nm cs =>
    ⟨p, nm, .elem nm cs, anc⟩ ::
      (cs.enum.map (fun ic =>
        preElemsD d (p ++ [ic.1]) ((p, nm) :: anc) ic.2)).flatten

/-- All elements of the parsed document in document order. -/
def docElems (d : Nat) (doc : List HNode) : List Elt :=
  (doc.enum.map (fun ic => preElemsD d [ic.1] [] ic.2)).flatten

/-- The names `extract_text_from_html` asks `find_all` for. -/
def extractNames : List String :=
  ["h1", "h2", "h3", "h4", "table", "p", "div", "ul", "ol"]

/-- The main loop of `extract_text_from_html` over the matched elements,
with the `processed_elements` id set as a list of paths. -/
def extractLoop (d : Nat) :
    List Elt → List (List Nat) → List Str → List Str
  | [], _, parts => parts
  | e :: es, processed, parts =>
    if processed.contains e.path then extractLoop d es processed parts
    else if e.name = "h1" ∨ e.name = "h2" ∨ e.name = "h3" ∨ e.name = "h4" then
      let lvlChar := (e.name.data.drop 1).headD '1'
      let header := getTextStripD d e.node
      let parts' :=
        if header ≠ [] ∧ header.length > 3 then
          let marker :=
            '\n' :: (List.replicate (max 20 (60 - 10 * (lvlChar.toNat - 48))) '=' ++ ['\n'])
          parts ++ [marker ++ "SECTION_".data ++ [lvlChar] ++ ": ".data ++ header ++ marker]
        else parts
      extractLoop d es (processed ++ [e.path]) parts'
    else if e.name = "table" then
      let parentTable := (e.ancestors.find? (fun a => a.2 = "table")).map (fun a => a.1)
      let skip := match parentTable with
        | some pp => !(processed.contains pp)
        | none => false
      if skip then extractLoop d es processed parts
      else
        let tt := extract_table_text d e.node
        let parts' :=
          if tt ≠ [] ∧ (trimL tt).length > 50 then
            parts ++ ['\n' :: (OPEN ++ '\n' :: (tt ++ '\n' :: (CLOSE ++ ['\n'])))]
          else parts
        extractLoop d es (processed ++ [e.path]) parts'
    else if e.name = "p" ∨ e.name = "div" then
      if e.ancestors.any (fun a => processed.contains a.1) then
        extractLoop d es processed parts
      else
        let para := getTextStripD d e.node
        let parts' := if para ≠ [] ∧ para.length > 20 then parts ++ [para] else parts
        extractLoop d es (processed ++ [e.path]) parts'
    else
      if e.ancestors.any (fun a => processed.contains a.1) then
        extractLoop d es processed parts
      else
        let lt := extract_list_text d e.node
        let parts' := if lt ≠ [] then parts ++ [lt] else parts
        extractLoop d es (processed ++ [e.path]) parts'

/-- `extract_text_from_html` over a parsed document. -/
def extract_text_from_html (d : Nat) (doc : List HNode) : Str :=
  let doc' := removeScriptsD d doc
  let elems := (docElems d doc').filter (fun e => extractNames.contains e.name)
  joinSep "\n\n".data (extractLoop d elems [] [])

/-- An occurrence of `sep` as a contiguous substring. -/
def HasSub (sep s : Str) : Prop := ∃ a b, s = a ++ sep ++ b

/-! ## Trimmedness -/

/-- A string equal to its own strip (no leading/trailing whitespace). -/
def Trimmed (s : Str) : Prop := trimL s = s

/-- The id string computed at the end of `_create_chunk`. -/
def createId (metadata : Dict) : Str :=
  pyStr (dgetD metadata "company" (.s "unknown".data)) ++ "_".data ++
    pyStr (dgetD metadata "year" (.s "unknown".data)) ++ "_".data ++
    pyStr (dgetD metadata "chunk_id" (.n 0))

/-! ## Nodup-key dicts: `dget` and `dgetLast` agree -/

/-- No key occurs twice (true of every dict the chunker builds). -/
def NodupKeys (d : Dict) : Prop := (d.map Prod.fst).Nodup

/-- The text field of a chunk dict. -/
def chunkText (c : Dict) : Str :=
  match dget c "text" with
  | some (.s t) => t
  | _ => []

/-- Words of a chunk's text field. -/
def wTxt (c : Dict) : List Str := wordsOf (chunkText c)

/-- The body of the per-table loop of `_chunk_financial_tables`. -/
def tableOne (dp : DP) (sec : PySection) (metadata : Dict) (it : Nat × Str) :
    List Dict :=
  let tc := trimL it.2
  if tc = [] then []
  else
    let cm := cmTable sec it.1
    let cm := if metadata.isEmpty then cm else dupdate cm metadata
    if tokLen dp.tok tc ≤ dp.chunk_size then [create_chunk dp tc cm]
    else rowsLoop dp cm (splitCh '\n' tc) [] 0

/-! ## Section assembler lemmas -/

/-- Which (already stripped) lines the assembler keeps as content. -/
def keepLine (l : Str) : Bool :=
  decide (l ≠ []) && !("SECTION_".data.isPrefixOf l) && !("=".data.isPrefixOf l)

/-- The content lines the assembler keeps out of a list of raw lines. -/
def contentLinesOf (ls : List Str) : List Str := (ls.map trimL).filter keepLine

/-- The content lines of a marked text: stripped, non-blank, not a header
marker line, not a rule line. -/
def contentLines (T : Str) : List Str := contentLinesOf (splitCh '\n' T)

/-- Accumulated-buffer lines are nonempty, stripped and newline-free. -/
def GoodLine (l : Str) : Prop := l ≠ [] ∧ Trimmed l ∧ '\n' ∉ l

/-- A concrete processor configuration over the one-token-per-character
tokenizer, for evaluating the pipeline. -/
def dpChar : DP := { chunk_size := 1000, chunk_overlap := 200, tok := charTok }

/-- A document whose only top-level table contains one nested sub-table
(the inner rows `InnerRow...` belong to the nested table). -/
def nestedTableDoc : List HNode :=
  [.elem "body"
    [.elem "table"
      [.elem "tr" [.elem "td" [.txt "OuterRowOne".data],
                   .elem "td" [.txt "OuterRowTwo".data]],
       .elem "tr" [.elem "td"
         [.elem "table"
           [.elem "tr" [.elem "td" [.txt "InnerRowAlpha".data],
                        .elem "td" [.txt "InnerRowBeta".data]],
            .elem "tr" [.elem "td" [.txt "InnerRowGamma".data],
                        .elem "td" [.txt "InnerRowDelta".data]]]]]]]]

/-- A document with an over-20-character paragraph whose text begins with
`=`, next to an ordinary paragraph. -/
def noticeDoc : List HNode :=
  [.elem "body"
    [.elem "p" [.txt "=== IMPORTANT NOTICE PLEASE READ CAREFULLY ===".data],
     .elem "p" [.txt "Ordinary paragraph with plenty of words.".data]]]

/-! ## C7: token counts match the stored text -/

/-- The chunk's `token_count` is the token count of its own `text` field. -/
def GoodTok (dp : DP) (c : Dict) : Prop :=
  ∃ t, dget c "text" = some (.s t) ∧
    dget c "token_count" = some (.n (tokLen dp.tok t))

/-! ## Chunk shape: every chunk comes from `_create_chunk` with one of the
two metadata dicts -/

/-- Shape of every chunk the structure-aware splitter emits. -/
def ChunkShape (dp : DP) (meta : Dict) (c : Dict) : Prop :=
  ∃ (arg : Str) (sec : PySection) (i : Nat),
    c = create_chunk dp arg (dupdate (cmTable sec i) meta) ∨
    c = create_chunk dp arg (dupdate (cmText sec) meta)

/-- A document whose single table marker is unbalanced: no closing
`[/FINANCIAL_TABLE]` follows the opener, so no table span is recognized and
the opener stays in the prose stream. -/
def c8Doc : Str := "[FINANCIAL_TABLE]\nUnclosed table rows drift into prose.".data

/-- A section holding one well-formed table block followed by prose. -/
def c8Sec : PySection :=
  { title := "Financials".data
    content :=
      "[FINANCIAL_TABLE]\nRevenue | 100\n[/FINANCIAL_TABLE]\nNet income rose.".data
    level := 1
    type := "financial_statements".data }

/-! ## C4: token bounds via unit decomposition -/

/-- Join a first unit with further (separator, unit) pairs. -/
def mkJoin (u : Str) (rest : List (Str × Str)) : Str :=
  u ++ (rest.map (fun sv => sv.1 ++ sv.2)).flatten

/-- The separators the chunkers insert between accumulated units. -/
def SepOk (sv : Str × Str) : Prop :=
  sv.1 = " ".data ∨ sv.1 = "\n".data ∨ sv.1 = "\n\n".data

/-- The indivisible table units of a section body: the rows of each
extracted table span. -/
def tableUnits (content : Str) : List Str :=
  ((tableSpans content).map (fun t => splitCh '\n' (trimL t))).flatten

/-- The indivisible prose units of a body: each trimmed paragraph together
with its sentences. -/
def proseUnits (content : Str) : List Str :=
  ((splitNN content).map (fun p => trimL p :: splitSentences (trimL p))).flatten

/-- All indivisible units of a section, mirroring `_chunk_section`: table
rows of the original body plus prose units of the marker-free residue. -/
def sectionUnits (sec : PySection) : List Str :=
  if containsSub OPEN sec.content then
    tableUnits sec.content ++ proseUnits (removeTableSpans sec.content)
  else proseUnits sec.content

/-- A chunk text assembled from whole units: one unit, or several joined by
the chunkers' separators with the units' own token counts summing within
the bound (the stored `token_count` re-tokenizes the separators too and may
exceed the bound). -/
def ChunkFromUnits (dp : DP) (units : List Str) (t : Str) : Prop :=
  ∃ u rest, u ∈ units ∧ (∀ sv ∈ rest, SepOk sv ∧ sv.2 ∈ units) ∧
    t = trimL (mkJoin u rest) ∧
    (rest = [] ∨
      tokLen dp.tok u + (rest.map (fun sv => tokLen dp.tok sv.2)).sum
        ≤ dp.chunk_size)

/-- Invariant of the chunkers' accumulation buffer. -/
def BufFromUnits (dp : DP) (units : List Str) (cur : Str) (ct : Nat) : Prop :=
  ∃ u rest, u ∈ units ∧ (∀ sv ∈ rest, SepOk sv ∧ sv.2 ∈ units) ∧
    cur = mkJoin u rest ∧
    tokLen dp.tok u + (rest.map (fun sv => tokLen dp.tok sv.2)).sum ≤ ct ∧
    (rest = [] ∨ ct ≤ dp.chunk_size)

/-- A small chunker configuration (chunk_size 10, overlap 2, one token per
character) exhibiting separator-token overage. -/
def dpC4 : DP := { chunk_size := 10, chunk_overlap := 2, tok := charTok }

/-- A section whose single table has two 5-token rows. -/
def c4Sec : PySection :=
  { title := "T".data
    content := "[FINANCIAL_TABLE]\nabcde\nfghij\n[/FINANCIAL_TABLE]".data
    level := 1
    type := "financial_statements".data }

/-! ## Basic lemmas: words, trimming, splitting, occurrences -/

theorem wordsAux_append_ws {w : Char} (hw : isWS w = true) :
    ∀ (a : Str) (cur : Str) (b : Str),
      wordsAux (a ++ w :: b) cur = wordsAux a cur ++ wordsAux b [] := by
  intro a
  induction a with
  | nil =>
    intro cur b
    by_cases hc : cur = [] <;> simp [wordsAux, hw, hc]
  | cons c a ih =>
    intro cur b
    by_cases hws : isWS c
    · by_cases hc : cur = [] <;> simp [wordsAux, hws, hc, ih]
    · simp [wordsAux, hws, ih]

theorem wordsOf_append_ws {w : Char} (hw : isWS w = true) (a b : Str) :
    wordsOf (a ++ w :: b) = wordsOf a ++ wordsOf b := by
  simp [wordsOf, wordsAux_append_ws hw]

theorem wordsOf_cons_ws {w : Char} (hw : isWS w = true) (b : Str) :
    wordsOf (w :: b) = wordsOf b := by
  simpa using wordsOf_append_ws hw [] b

theorem wordsOf_nil : wordsOf [] = [] := rfl

theorem wordsOf_append_ws_right {w : Char} (hw : isWS w = true) (a : Str) :
    wordsOf (a ++ [w]) = wordsOf a :=
  (wordsOf_append_ws hw a []).trans (by rw [wordsOf_nil, List.append_nil])

theorem wordsOf_all_ws : ∀ {s : Str}, (∀ c ∈ s, isWS c = true) → wordsOf s = [] := by
  intro s
  induction s with
  | nil => intro _; rfl
  | cons c rest ih =>
    intro h
    rw [wordsOf_cons_ws (h c (List.mem_cons_self _ _))]
    exact ih (fun d hd => h d (List.mem_cons_of_mem _ hd))

theorem wordsOf_append_allws_left :
    ∀ (p b : Str), (∀ c ∈ p, isWS c = true) → wordsOf (p ++ b) = wordsOf b := by
  intro p
  induction p with
  | nil => intro b _; rfl
  | cons c rest ih =>
    intro b h
    rw [List.cons_append, wordsOf_cons_ws (h c (List.mem_cons_self _ _))]
    exact ih b (fun d hd => h d (List.mem_cons_of_mem _ hd))

theorem wordsOf_append_allws_right :
    ∀ (s t : Str), (∀ c ∈ t, isWS c = true) → wordsOf (s ++ t) = wordsOf s := by
  intro s t
  induction t generalizing s with
  | nil => intro _; simp
  | cons c rest ih =>
    intro h
    rw [wordsOf_append_ws (h c (List.mem_cons_self _ _)) s rest]
    rw [wordsOf_all_ws (fun d hd => h d (List.mem_cons_of_mem _ hd))]
    simp

theorem wordsOf_dropWhile_ws (s : Str) : wordsOf (s.dropWhile isWS) = wordsOf s := by
  induction s with
  | nil => rfl
  | cons c rest ih =>
    by_cases hws : isWS c
    · rw [List.dropWhile_cons_of_pos hws, ih, wordsOf_cons_ws hws]
    · rw [List.dropWhile_cons_of_neg (by simpa using hws)]

theorem trimL_decomp (s : Str) :
    ∃ pre post, s = pre ++ trimL s ++ post ∧
      (∀ c ∈ pre, isWS c = true) ∧ (∀ c ∈ post, isWS c = true) := by
  refine ⟨s.takeWhile isWS, ((s.dropWhile isWS).reverse.takeWhile isWS).reverse,
    ?_, ?_, ?_⟩
  · have h3 : s.dropWhile isWS
        = trimL s ++ ((s.dropWhile isWS).reverse.takeWhile isWS).reverse := by
      calc s.dropWhile isWS
          = (s.dropWhile isWS).reverse.reverse := (List.reverse_reverse _).symm
        _ = ((s.dropWhile isWS).reverse.takeWhile isWS ++
              (s.dropWhile isWS).reverse.dropWhile isWS).reverse := by
            rw [List.takeWhile_append_dropWhile]
        _ = trimL s ++ ((s.dropWhile isWS).reverse.takeWhile isWS).reverse := by
            rw [List.reverse_append]; rfl
    calc s = s.takeWhile isWS ++ s.dropWhile isWS :=
          (List.takeWhile_append_dropWhile isWS s).symm
      _ = s.takeWhile isWS ++
            (trimL s ++ ((s.dropWhile isWS).reverse.takeWhile isWS).reverse) := by
          rw [← h3]
      _ = _ := (List.append_assoc _ _ _).symm
  · exact fun c hc => List.mem_takeWhile_imp hc
  · intro c hc
    rw [List.mem_reverse] at hc
    exact List.mem_takeWhile_imp hc

theorem wordsOf_trimL (s : Str) : wordsOf (trimL s) = wordsOf s := by
  obtain ⟨pre, post, hs, hpre, hpost⟩ := trimL_decomp s
  conv_rhs => rw [hs, List.append_assoc]
  rw [wordsOf_append_allws_left pre _ hpre,
    wordsOf_append_allws_right _ post hpost]

theorem joinSep_cons (sep x : Str) (y : Str) (xs : List Str) :
    joinSep sep (x :: y :: xs) = x ++ sep ++ joinSep sep (y :: xs) := rfl

theorem joinNL_nil : joinNL [] = [] := rfl

theorem joinNL_cons (p : Str) (ps : List Str) :
    joinNL (p :: ps) = p ++ '\n' :: joinNL ps := by
  simp [joinNL]

theorem joinNL_append (a b : List Str) :
    joinNL (a ++ b) = joinNL a ++ joinNL b := by
  simp [joinNL]

theorem joinNL_eq_joinSep (parts : List Str) (h : parts ≠ []) :
    joinNL parts = joinSep ['\n'] parts ++ ['\n'] := by
  induction parts with
  | nil => exact absurd rfl h
  | cons p ps ih =>
    cases ps with
    | nil => simp [joinNL, joinSep]
    | cons q qs =>
      rw [joinNL_cons, ih (by simp), joinSep_cons]
      simp

theorem wordsOf_joinNL (parts : List Str) :
    wordsOf (joinNL parts) = (parts.map wordsOf).flatten := by
  induction parts with
  | nil => rfl
  | cons p ps ih =>
    rw [joinNL_cons, wordsOf_append_ws (by decide) p (joinNL ps), ih]
    simp

theorem wordsOf_joinSep_nl (parts : List Str) :
    wordsOf (joinSep ['\n'] parts) = (parts.map wordsOf).flatten := by
  induction parts with
  | nil => rfl
  | cons p ps ih =>
    cases ps with
    | nil => simp [joinSep]
    | cons q qs =>
      rw [joinSep_cons, List.append_assoc, List.singleton_append,
        wordsOf_append_ws (by decide) p, ih]
      simp

theorem wordsOf_joinSep_nn (parts : List Str) :
    wordsOf (joinSep "\n\n".data parts) = (parts.map wordsOf).flatten := by
  induction parts with
  | nil => rfl
  | cons p ps ih =>
    cases ps with
    | nil => simp [joinSep]
    | cons q qs =>
      have : p ++ "\n\n".data ++ joinSep "\n\n".data (q :: qs)
          = p ++ '\n' :: ('\n' :: joinSep "\n\n".data (q :: qs)) := by
        simp
      rw [joinSep_cons, this, wordsOf_append_ws (by decide) p,
        wordsOf_cons_ws (by decide), ih]
      simp

theorem splitChAux_ne_nil (c : Char) : ∀ (s cur : Str), splitChAux c s cur ≠ [] := by
  intro s
  induction s with
  | nil => intro cur; simp [splitChAux]
  | cons d rest ih =>
    intro cur
    by_cases hd : d = c
    · rw [splitChAux, if_pos hd]; simp
    · rw [splitChAux, if_neg hd]; exact ih _

theorem splitChAux_spec (c : Char) :
    ∀ (s cur : Str), joinSep [c] (splitChAux c s cur) = cur.reverse ++ s := by
  intro s
  induction s with
  | nil => intro cur; simp [splitChAux, joinSep]
  | cons d rest ih =>
    intro cur
    by_cases hd : d = c
    · subst hd
      rw [splitChAux, if_pos rfl]
      cases hsp : splitChAux d rest [] with
      | nil => exact absurd hsp (splitChAux_ne_nil d rest [])
      | cons x xs =>
        have h2 := ih []
        rw [hsp] at h2
        simp only [List.reverse_nil, List.nil_append] at h2
        rw [joinSep_cons, h2]
        simp
    · rw [splitChAux, if_neg hd, ih]
      simp

theorem splitCh_join (c : Char) (s : Str) : joinSep [c] (splitCh c s) = s := by
  simpa using splitChAux_spec c s []

theorem splitChAux_no_sep (c : Char) :
    ∀ (s cur : Str), c ∉ cur → ∀ p ∈ splitChAux c s cur, c ∉ p := by
  intro s
  induction s with
  | nil =>
    intro cur hcur p hp
    simp only [splitChAux, List.mem_singleton] at hp
    subst hp
    simpa using hcur
  | cons d rest ih =>
    intro cur hcur p hp
    by_cases hd : d = c
    · rw [splitChAux, if_pos hd] at hp
      rcases List.mem_cons.mp hp with h | h
      · subst h; simpa using hcur
      · exact ih [] (by simp) p h
    · rw [splitChAux, if_neg hd] at hp
      refine ih (d :: cur) ?_ p hp
      intro hmem
      rcases List.mem_cons.mp hmem with h | h
      · exact hd h.symm
      · exact hcur h

theorem splitCh_no_sep (c : Char) (s : Str) : ∀ p ∈ splitCh c s, c ∉ p :=
  splitChAux_no_sep c s [] (by simp)

theorem splitNNAux_ne_nil : ∀ (s cur : Str), splitNNAux s cur ≠ [] := by
  intro s cur
  induction s, cur using splitNNAux.induct with
  | case1 cur => simp [splitNNAux]
  | case2 rest cur ih => simp [splitNNAux]
  | case3 c rest cur h ih => rw [splitNNAux.eq_3 _ _ _ h]; exact ih

theorem splitNNAux_spec (s cur : Str) :
    joinSep "\n\n".data (splitNNAux s cur) = cur.reverse ++ s := by
  induction s, cur using splitNNAux.induct with
  | case1 cur => simp [splitNNAux, joinSep]
  | case2 rest cur ih =>
    rw [splitNNAux]
    cases hsp : splitNNAux rest [] with
    | nil => exact absurd hsp (splitNNAux_ne_nil rest [])
    | cons x xs =>
      rw [hsp] at ih
      simp only [List.reverse_nil, List.nil_append] at ih
      rw [joinSep_cons, ih]
      simp
  | case3 c rest cur h ih =>
    rw [splitNNAux.eq_3 _ _ _ h, ih]
    simp

theorem splitNN_join (s : Str) : joinSep "\n\n".data (splitNN s) = s := by
  simpa using splitNNAux_spec s []

theorem wordsOf_splitNN (s : Str) :
    ((splitNN s).map wordsOf).flatten = wordsOf s := by
  rw [← wordsOf_joinSep_nn, splitNN_join]

theorem findSub_eq_some {sep s a b : Str} (h : findSub sep s = some (a, b)) :
    s = a ++ sep ++ b := by
  induction s generalizing a with
  | nil =>
    by_cases hsep : sep.isEmpty
    · rw [findSub, if_pos hsep] at h
      cases h
      simp_all [List.isEmpty_iff]
    · rw [findSub, if_neg hsep] at h
      cases h
  | cons c rest ih =>
    rw [findSub] at h
    by_cases hpre : sep.isPrefixOf (c :: rest)
    · rw [if_pos hpre] at h
      obtain ⟨t, ht⟩ := List.isPrefixOf_iff_prefix.mp hpre
      cases h
      rw [← ht, List.drop_left]
      simp [← ht]
    · rw [if_neg hpre] at h
      obtain ⟨p, hp, hpab⟩ := Option.map_eq_some'.mp h
      obtain ⟨hpa, hpb⟩ := Prod.mk.injEq .. ▸ hpab
      subst hpa hpb
      rw [ih hp]
      simp

theorem findSub_none {sep s : Str} (h : findSub sep s = none) : ¬ HasSub sep s := by
  induction s with
  | nil =>
    rintro ⟨a, b, hab⟩
    by_cases hsep : sep.isEmpty
    · rw [findSub, if_pos hsep] at h
      cases h
    · rw [List.isEmpty_iff] at hsep
      have := congrArg List.length hab
      simp at this
      exact hsep (List.length_eq_zero.mp (by omega))
  | cons c rest ih =>
    rintro ⟨a, b, hab⟩
    rw [findSub] at h
    by_cases hpre : sep.isPrefixOf (c :: rest)
    · rw [if_pos hpre] at h
      cases h
    · rw [if_neg hpre] at h
      cases a with
      | nil =>
        refine hpre (List.isPrefixOf_iff_prefix.mpr ⟨b, ?_⟩)
        simpa using hab.symm
      | cons a0 arest =>
        have : rest = arest ++ sep ++ b := by
          have := hab
          simp only [List.cons_append] at this
          exact (List.cons.injEq .. ▸ this).2
        exact ih (by simpa using h) ⟨arest, b, this⟩

theorem containsSub_iff (sep s : Str) : containsSub sep s = true ↔ HasSub sep s := by
  constructor
  · intro h
    rw [containsSub, Option.isSome_iff_exists] at h
    obtain ⟨⟨a, b⟩, hab⟩ := h
    exact ⟨a, b, findSub_eq_some hab⟩
  · intro h
    by_contra hc
    have : findSub sep s = none := by
      cases hf : findSub sep s with
      | none => rfl
      | some p => rw [containsSub, hf] at hc; simp at hc
    exact findSub_none this h

theorem findSub_some_lengths {sep s a b : Str} (h : findSub sep s = some (a, b)) :
    s.length = a.length + sep.length + b.length := by
  have := congrArg List.length (findSub_eq_some h)
  simp at this
  omega

theorem hasSub_of_part {sep p s : Str} (hinf : p <:+: s) (h : HasSub sep p) :
    HasSub sep s := by
  obtain ⟨a, b, hab⟩ := h
  obtain ⟨l, r, hlr⟩ := hinf
  exact ⟨l ++ a, b ++ r, by rw [← hlr, hab]; simp⟩

theorem trimL_part (s : Str) : trimL s <:+: s := by
  obtain ⟨pre, post, hs, _, _⟩ := trimL_decomp s
  exact ⟨pre, post, by rw [← hs]⟩

theorem hasSub_reverse {sep s : Str} (h : HasSub sep.reverse s.reverse) :
    HasSub sep s := by
  obtain ⟨a, b, hab⟩ := h
  refine ⟨b.reverse, a.reverse, ?_⟩
  have := congrArg List.reverse hab
  simpa using this

theorem hasSub_of_prefix_part {sep a rest u v : Str}
    (heq : a ++ rest = u ++ sep ++ v) (hlen : u.length + sep.length ≤ a.length) :
    HasSub sep a := by
  have hpre : (u ++ sep) <+: a := by
    refine List.prefix_of_prefix_length_le ⟨v, by rw [← heq]⟩
      ⟨rest, rfl⟩ (by simpa using hlen)
  obtain ⟨t, ht⟩ := hpre
  exact ⟨u, t, by rw [← ht]⟩

theorem hasSub_append_cons {sep a b : Str} {w : Char}
    (h : HasSub sep (a ++ w :: b)) :
    HasSub sep a ∨ w ∈ sep ∨ HasSub sep b := by
  obtain ⟨u, v, huv⟩ := h
  rcases Nat.lt_or_ge a.length (u.length + sep.length) with hcase | hcase
  · rcases Nat.lt_or_ge a.length u.length with hcase2 | hcase2
    · -- the occurrence lies inside `b`
      right; right
      apply hasSub_reverse
      have hrev : b.reverse ++ w :: a.reverse
          = v.reverse ++ sep.reverse ++ u.reverse := by
        have := congrArg List.reverse huv
        simpa using this
      have hlen := congrArg List.length huv
      simp at hlen
      exact @hasSub_of_prefix_part sep.reverse b.reverse (w :: a.reverse)
        v.reverse u.reverse (by simpa using hrev) (by simp; omega)
    · -- the occurrence contains the separator character `w`
      right; left
      have hpref_u : u <+: a := by
        refine List.prefix_of_prefix_length_le ⟨sep ++ v, ?_⟩ ⟨w :: b, rfl⟩ hcase2
        rw [huv, List.append_assoc]
      obtain ⟨t, rfl⟩ := hpref_u
      have htb : t ++ w :: b = sep ++ v :=
        List.append_cancel_left
          (by rw [← List.append_assoc, huv, List.append_assoc])
      have hlen_t : t.length + 1 ≤ sep.length := by
        simp at hcase
        omega
      have hpre : (t ++ [w]) <+: sep := by
        refine List.prefix_of_prefix_length_le ⟨b, ?_⟩ ⟨v, rfl⟩ ?_
        · rw [← htb]
          simp
        · simpa using hlen_t
      exact hpre.sublist.mem (by simp)
  · -- the occurrence lies inside `a`
    left
    exact hasSub_of_prefix_part huv hcase

/-! ## Dict lemmas -/

theorem dget_dset_self (d : Dict) (k : String) (v : PyVal) :
    dget (dset d k v) k = some v := by
  induction d with
  | nil => simp [dset, dget]
  | cons kv rest ih =>
    obtain ⟨k', v'⟩ := kv
    by_cases hk : k = k'
    · simp [dset, dget, hk]
    · simp [dset, dget, hk, ih]

theorem dget_dset_ne (d : Dict) (k k₀ : String) (v : PyVal) (hne : k₀ ≠ k) :
    dget (dset d k v) k₀ = dget d k₀ := by
  induction d with
  | nil => simp [dset, dget, hne]
  | cons kv rest ih =>
    obtain ⟨k', v'⟩ := kv
    by_cases hk : k = k'
    · subst hk
      simp [dset, dget, hne, ih]
    · by_cases hk0 : k₀ = k'
      · simp [dset, dget, hk, hk0]
      · simp [dset, dget, hk, hk0, ih]

theorem dget_append (a b : Dict) (k : String) :
    dget (a ++ b) k = (dget a k).orElse (fun _ => dget b k) := by
  induction a with
  | nil => simp [dget]
  | cons kv rest ih =>
    obtain ⟨k', v'⟩ := kv
    by_cases hk : k = k'
    · simp [dget, hk]
    · simp [dget, hk, ih]

theorem dgetLast_cons (kv : String × PyVal) (b : Dict) (k : String) :
    dgetLast (kv :: b) k
      = (dgetLast b k).orElse (fun _ => if k = kv.1 then some kv.2 else none) := by
  simp [dgetLast, dget_append, dget]

theorem dget_dupdate (a b : Dict) (k : String) :
    dget (dupdate a b) k = (dgetLast b k).orElse (fun _ => dget a k) := by
  induction b generalizing a with
  | nil => simp [dupdate, dgetLast, dget]
  | cons kv rest ih =>
    obtain ⟨k', v'⟩ := kv
    have hstep : dupdate a ((k', v') :: rest) = dupdate (dset a k' v') rest := by
      simp [dupdate]
    rw [hstep, ih, dgetLast_cons]
    by_cases hk : k = k'
    · subst hk
      cases hlast : dgetLast rest k <;>
        simp [Option.orElse, dget_dset_self]
    · cases hlast : dgetLast rest k <;>
        simp [Option.orElse, hk, dget_dset_ne _ _ _ _ hk]

theorem dget_of_dgetLast_none {b : Dict} {k : String} (h : dget b k = none) :
    dgetLast b k = none := by
  induction b with
  | nil => rfl
  | cons kv rest ih =>
    obtain ⟨k', v'⟩ := kv
    rw [dget] at h
    by_cases hk : k = k'
    · rw [if_pos hk] at h
      cases h
    · rw [if_neg hk] at h
      rw [dgetLast_cons, ih h]
      simp [Option.orElse, hk]

theorem trimmed_nil : Trimmed [] := rfl

theorem dropWhile_eq_self_of_head {p : Char → Bool} :
    ∀ {s : Str}, (∀ c, s.head? = some c → p c = false) → s.dropWhile p = s := by
  intro s h
  cases s with
  | nil => rfl
  | cons c rest =>
    rw [List.dropWhile_cons_of_neg]
    simp [h c rfl]

theorem trimmed_of_ends {s : Str}
    (hhead : ∀ c, s.head? = some c → isWS c = false)
    (hlast : ∀ c, s.getLast? = some c → isWS c = false) : Trimmed s := by
  unfold Trimmed trimL
  rw [dropWhile_eq_self_of_head hhead]
  rw [dropWhile_eq_self_of_head (by
    intro c hc
    apply hlast
    rwa [← List.head?_reverse])]
  simp

theorem head?_dropWhile {p : Char → Bool} :
    ∀ (l : Str) (c : Char), (l.dropWhile p).head? = some c → p c = false := by
  intro l
  induction l with
  | nil => intro c hc; cases hc
  | cons d rest ih =>
    intro c hc
    by_cases hd : p d = true
    · rw [List.dropWhile_cons_of_pos hd] at hc
      exact ih c hc
    · rw [List.dropWhile_cons_of_neg hd] at hc
      have hdc : d = c := by simpa using hc
      rw [← hdc]
      simpa using hd

theorem length_dropWhile_le' (p : Char → Bool) (l : Str) :
    (l.dropWhile p).length ≤ l.length :=
  (List.dropWhile_suffix p).length_le

theorem trimmed_head_cons {c0 : Char} {rest : Str} (h : Trimmed (c0 :: rest)) :
    isWS c0 = false := by
  by_contra hws
  rw [Bool.not_eq_false] at hws
  have h1 : (trimL (c0 :: rest)).length < (c0 :: rest).length := by
    unfold trimL
    calc (((c0 :: rest).dropWhile isWS).reverse.dropWhile isWS).reverse.length
        ≤ ((c0 :: rest).dropWhile isWS).length := by
          simpa using
            length_dropWhile_le' isWS ((c0 :: rest).dropWhile isWS).reverse
      _ < (c0 :: rest).length := by
          rw [List.dropWhile_cons_of_pos hws]
          exact Nat.lt_succ_of_le (length_dropWhile_le' isWS rest)
  rw [h] at h1
  exact Nat.lt_irrefl _ h1

theorem trimmed_head {s : Str} (h : Trimmed s) :
    ∀ c, s.head? = some c → isWS c = false := by
  intro c hc
  cases s with
  | nil => cases hc
  | cons c0 rest =>
    have hdc : c0 = c := by simpa using hc
    rw [← hdc]
    exact trimmed_head_cons h

theorem trimmed_last {s : Str} (h : Trimmed s) :
    ∀ c, s.getLast? = some c → isWS c = false := by
  intro c hc
  have h2 : (s.dropWhile isWS).reverse.dropWhile isWS = s.reverse := by
    have := congrArg List.reverse h
    simpa [Trimmed, trimL] using this
  apply head?_dropWhile ((s.dropWhile isWS).reverse) c
  rw [h2, List.head?_reverse]
  exact hc

theorem head?_append_ne_nil {a x : Str} (ha : a ≠ []) :
    (a ++ x).head? = a.head? := by
  cases a with
  | nil => exact absurd rfl ha
  | cons c rest => simp

theorem getLast?_append_ne_nil {x b : Str} (hb : b ≠ []) :
    (x ++ b).getLast? = b.getLast? := by
  rw [← List.head?_reverse, ← List.head?_reverse]
  rw [List.reverse_append]
  exact head?_append_ne_nil (by simpa using hb)

theorem trimmed_append3 {a m b : Str} (ha : Trimmed a) (hb : Trimmed b)
    (hane : a ≠ []) (hbne : b ≠ []) : Trimmed (a ++ m ++ b) := by
  apply trimmed_of_ends
  · intro c hc
    rw [List.append_assoc, head?_append_ne_nil hane] at hc
    exact trimmed_head ha c hc
  · intro c hc
    rw [getLast?_append_ne_nil hbne] at hc
    exact trimmed_last hb c hc

theorem trimmed_trimL (s : Str) : Trimmed (trimL s) := by
  apply trimmed_of_ends
  · intro c hc
    have hpre : trimL s <+: s.dropWhile isWS := by
      have hsuf : ((s.dropWhile isWS).reverse.dropWhile isWS)
          <:+ (s.dropWhile isWS).reverse := List.dropWhile_suffix isWS
      have := List.reverse_prefix.mpr hsuf
      simpa [trimL] using this
    obtain ⟨t2, ht⟩ := hpre
    apply head?_dropWhile s c
    rw [← ht, head?_append_ne_nil (by intro h0; rw [h0] at hc; cases hc)]
    exact hc
  · intro c hc
    have hhd : (List.dropWhile isWS (s.dropWhile isWS).reverse).head? = some c := by
      rw [← List.getLast?_reverse]
      exact hc
    exact head?_dropWhile _ c hhd

theorem trimL_idem (s : Str) : trimL (trimL s) = trimL s := trimmed_trimL s

theorem trimL_nil_words {s : Str} (h : trimL s = []) : wordsOf s = [] := by
  rw [← wordsOf_trimL, h, wordsOf_nil]

theorem trimL_append_ws_right {w : Char} (hw : isWS w = true) (x : Str) :
    trimL (x ++ [w]) = trimL x := by
  unfold trimL
  rw [List.dropWhile_append]
  by_cases hx : (x.dropWhile isWS).isEmpty = true
  · rw [if_pos hx]
    rw [List.isEmpty_iff] at hx
    rw [hx]
    simp [List.dropWhile, hw]
  · rw [if_neg hx]
    rw [List.reverse_append]
    simp [List.dropWhile, hw]

theorem joinSep_ne_nil {sep : Str} {parts : List Str} (hne : parts ≠ [])
    (hfst : ∀ p ∈ parts, p ≠ []) : joinSep sep parts ≠ [] := by
  cases parts with
  | nil => exact absurd rfl hne
  | cons p ps =>
    cases ps with
    | nil => exact hfst p (List.mem_cons_self _ _)
    | cons q qs =>
      rw [joinSep_cons]
      intro h0
      exact hfst p (List.mem_cons_self _ _)
        (List.append_eq_nil.mp (List.append_eq_nil.mp h0).1).1

theorem trimmed_joinSep_nl {parts : List Str} (hne : parts ≠ [])
    (hp : ∀ p ∈ parts, p ≠ [] ∧ Trimmed p) :
    Trimmed (joinSep ['\n'] parts) := by
  induction parts with
  | nil => exact absurd rfl hne
  | cons p ps ih =>
    cases ps with
    | nil => exact (hp p (List.mem_cons_self _ _)).2
    | cons q qs =>
      rw [joinSep_cons]
      have hq : ∀ r ∈ q :: qs, r ≠ [] ∧ Trimmed r :=
        fun r hr => hp r (List.mem_cons_of_mem _ hr)
      have hj := ih (by simp) hq
      have hjne : joinSep ['\n'] (q :: qs) ≠ [] :=
        joinSep_ne_nil (by simp) (fun r hr => (hq r hr).1)
      have hpp := hp p (List.mem_cons_self _ _)
      exact trimmed_append3 (m := ['\n']) hpp.2 hj hpp.1 hjne

theorem trimL_joinNL {parts : List Str} (hp : ∀ p ∈ parts, p ≠ [] ∧ Trimmed p) :
    trimL (joinNL parts) = joinSep ['\n'] parts := by
  cases hne : parts with
  | nil => simp [joinNL, joinSep, trimL]
  | cons p ps =>
    rw [← hne, joinNL_eq_joinSep parts (by rw [hne]; simp),
      trimL_append_ws_right (by decide)]
    exact trimmed_joinSep_nl (by rw [hne]; simp) hp

theorem splitChAux_prepend (c : Char) :
    ∀ (p : Str), c ∉ p → ∀ (s cur : Str),
      splitChAux c (p ++ s) cur = splitChAux c s (p.reverse ++ cur) := by
  intro p
  induction p with
  | nil => intro _ s cur; simp
  | cons d rest ih =>
    intro hd s cur
    rw [List.cons_append, splitChAux,
      if_neg (fun h => hd (by rw [h]; exact List.mem_cons_self _ _)),
      ih (fun h => hd (List.mem_cons_of_mem _ h))]
    simp

theorem splitCh_joinSep_nl {parts : List Str} (hne : parts ≠ [])
    (hp : ∀ p ∈ parts, '\n' ∉ p) :
    splitCh '\n' (joinSep ['\n'] parts) = parts := by
  induction parts with
  | nil => exact absurd rfl hne
  | cons p ps ih =>
    cases ps with
    | nil =>
      rw [joinSep]
      unfold splitCh
      rw [show p = p ++ [] by simp,
        splitChAux_prepend '\n' p (hp p (List.mem_cons_self _ _)) [] []]
      simp [splitChAux]
    | cons q qs =>
      rw [joinSep_cons]
      unfold splitCh
      rw [show p ++ ['\n'] ++ joinSep ['\n'] (q :: qs)
          = p ++ ('\n' :: joinSep ['\n'] (q :: qs)) by simp]
      rw [splitChAux_prepend '\n' p (hp p (List.mem_cons_self _ _)) _ [],
        splitChAux, if_pos rfl]
      have hih := ih (by simp) (fun r hr => hp r (List.mem_cons_of_mem _ hr))
      unfold splitCh at hih
      rw [hih]
      simp

/-! ## Table-span scanning lemmas -/

theorem tableSpansF_eq_split : ∀ (f : Nat) (s : Str),
    tableSpansF f s = (tableSplitF f s).2 := by
  intro f
  induction f with
  | zero => intro s; rfl
  | succ f ih =>
    intro s
    rw [tableSpansF, tableSplitF]
    cases h1 : findSub OPEN s with
    | none => rfl
    | some p1 =>
      obtain ⟨a, rest⟩ := p1
      cases h2 : findSub CLOSE rest with
      | none => simp [h2]
      | some p2 =>
        obtain ⟨mid, rest2⟩ := p2
        simp [h2, ih]

theorem removeTableSpansF_eq_split : ∀ (f : Nat) (s : Str),
    removeTableSpansF f s = (tableSplitF f s).1.flatten := by
  intro f
  induction f with
  | zero => intro s; simp [removeTableSpansF, tableSplitF]
  | succ f ih =>
    intro s
    rw [removeTableSpansF, tableSplitF]
    cases h1 : findSub OPEN s with
    | none => simp
    | some p1 =>
      obtain ⟨a, rest⟩ := p1
      cases h2 : findSub CLOSE rest with
      | none => simp [h2]
      | some p2 =>
        obtain ⟨mid, rest2⟩ := p2
        simp [h2, ih]

theorem tableSplitF_reassemble : ∀ (f : Nat) (s : Str), s.length ≤ f →
    reassemble (tableSplitF f s).1 (tableSplitF f s).2 = s := by
  intro f
  induction f with
  | zero => intro s _; simp [tableSplitF, reassemble]
  | succ f ih =>
    intro s hlen
    rw [tableSplitF]
    cases h1 : findSub OPEN s with
    | none => simp [reassemble]
    | some p1 =>
      obtain ⟨a, rest⟩ := p1
      cases h2 : findSub CLOSE rest with
      | none => simp [h2, reassemble]
      | some p2 =>
        obtain ⟨mid, rest2⟩ := p2
        simp only [h2]
        have hs := findSub_eq_some h1
        have hr := findSub_eq_some h2
        have hslen := findSub_some_lengths h1
        have hrlen := findSub_some_lengths h2
        have hrec : rest2.length ≤ f := by
          have hOl : OPEN.length = 17 := by decide
          have hCl : CLOSE.length = 18 := by decide
          omega
        have := ih rest2 hrec
        simp only [reassemble, this]
        rw [hs, hr]
        simp

theorem tableSplit_reassemble (s : Str) :
    reassemble (tableSplit s).1 (tableSplit s).2 = s :=
  tableSplitF_reassemble s.length s (le_refl _)

theorem tableSpans_eq_split (s : Str) : tableSpans s = (tableSplit s).2 :=
  tableSpansF_eq_split s.length s

theorem removeTableSpans_eq_split (s : Str) :
    removeTableSpans s = (tableSplit s).1.flatten :=
  removeTableSpansF_eq_split s.length s

theorem removeTableSpans_of_not_contains {s : Str}
    (h : containsSub OPEN s = false) : removeTableSpans s = s := by
  unfold removeTableSpans
  cases hf : s.length with
  | zero => rfl
  | succ f =>
    rw [removeTableSpansF]
    cases h1 : findSub OPEN s with
    | none => rfl
    | some p => rw [containsSub, h1] at h; cases h

theorem tableSpans_of_not_contains {s : Str}
    (h : containsSub OPEN s = false) : tableSpans s = [] := by
  unfold tableSpans
  cases hf : s.length with
  | zero => rfl
  | succ f =>
    rw [tableSpansF]
    cases h1 : findSub OPEN s with
    | none => rfl
    | some p => rw [containsSub, h1] at h; cases h

/-! ## Sentence splitter lemmas -/

theorem not_ws_of_upper {c : Char} (h : c.isUpper = true) : isWS c = false := by
  by_contra hws
  rw [Bool.not_eq_false] at hws
  simp [isWS] at hws
  rcases hws with ((rfl | rfl) | rfl) | rfl <;> simp [Char.isUpper] at h

theorem getLast?_cons_ne_nil {c : Char} {rest : Str} (h : rest ≠ []) :
    (c :: rest).getLast? = rest.getLast? := by
  rw [show c :: rest = [c] ++ rest by simp, getLast?_append_ne_nil h]

theorem sentBreakAfter_spec {rest : Str} (h : sentBreakAfter rest = true) :
    rest.takeWhile isWS ≠ [] ∧
      ∀ d rest', rest.dropWhile isWS = d :: rest' → d.isUpper = true := by
  unfold sentBreakAfter at h
  rw [Bool.and_eq_true] at h
  obtain ⟨h1, h2⟩ := h
  refine ⟨by simpa using h1, ?_⟩
  intro d rest' hd
  rw [hd] at h2
  exact h2

theorem takeWhile_ne_nil_head {p : Char → Bool} {rest : Str}
    (h : rest.takeWhile p ≠ []) : ∃ w rest', rest = w :: rest' ∧ p w = true := by
  cases rest with
  | nil => simp [List.takeWhile] at h
  | cons w rest' =>
    refine ⟨w, rest', rfl, ?_⟩
    by_contra hw
    rw [List.takeWhile_cons_of_neg (by simpa using hw)] at h
    exact h rfl

theorem sentGoF_words : ∀ (f : Nat) (s cur : Str), s.length ≤ f →
    ((sentGoF f s cur).map wordsOf).flatten = wordsOf (cur.reverse ++ s) := by
  intro f
  induction f with
  | zero =>
    intro s cur hlen
    obtain rfl : s = [] := List.length_eq_zero.mp (Nat.le_zero.mp hlen)
    simp [sentGoF]
  | succ f ih =>
    intro s cur hlen
    cases s with
    | nil => simp [sentGoF]
    | cons c rest =>
      rw [sentGoF]
      by_cases hbr : (c = '.' ∨ c = '!' ∨ c = '?') ∧ sentBreakAfter rest = true
      · rw [if_pos hbr]
        obtain ⟨htw, _⟩ := sentBreakAfter_spec hbr.2
        obtain ⟨w, rest', hw, hpw⟩ := takeWhile_ne_nil_head htw
        have hdrop : (rest.dropWhile isWS).length ≤ f := by
          have h1 := length_dropWhile_le' isWS rest
          simp at hlen
          omega
        simp only [List.map_cons, List.flatten_cons, ih _ [] hdrop]
        rw [List.reverse_nil, List.nil_append]
        obtain ⟨tw', htw'⟩ : ∃ tw', rest.takeWhile isWS = w :: tw' := by
          rw [hw, List.takeWhile_cons_of_pos hpw]
          exact ⟨_, rfl⟩
        have hpw' : isWS w = true := hpw
        have hrhs : wordsOf (cur.reverse ++ c :: rest)
            = wordsOf (cur.reverse ++ [c]) ++ wordsOf (rest.dropWhile isWS) := by
          conv_lhs => rw [show cur.reverse ++ c :: rest
            = (cur.reverse ++ [c]) ++ (rest.takeWhile isWS ++ rest.dropWhile isWS) by
              rw [List.takeWhile_append_dropWhile]; simp]
          rw [htw', List.cons_append,
            wordsOf_append_ws hpw' (cur.reverse ++ [c]) (tw' ++ rest.dropWhile isWS),
            wordsOf_append_allws_left tw' _ (fun d hd =>
              List.mem_takeWhile_imp (by rw [htw']; exact List.mem_cons_of_mem w hd))]
        exact hrhs.symm
      · rw [if_neg hbr]
        have : rest.length ≤ f := by simp at hlen; omega
        rw [ih _ (c :: cur) this]
        congr 1
        simp

theorem sentBreakAfter_drop {rest : Str} (h : sentBreakAfter rest = true) :
    ∃ d tail, rest.dropWhile isWS = d :: tail ∧ d.isUpper = true := by
  unfold sentBreakAfter at h
  rw [Bool.and_eq_true] at h
  obtain ⟨_, h2⟩ := h
  cases hdw : rest.dropWhile isWS with
  | nil => rw [hdw] at h2; cases h2
  | cons d tail =>
    rw [hdw] at h2
    exact ⟨d, tail, rfl, h2⟩

theorem sentGoF_pieces : ∀ (f : Nat) (s cur : Str), s.length ≤ f →
    (∀ c, cur.getLast? = some c → isWS c = false) →
    (cur = [] → ∀ c, s.head? = some c → isWS c = false) →
    (∀ c, (cur.reverse ++ s).getLast? = some c → isWS c = false) →
    cur.reverse ++ s ≠ [] →
    ∀ p ∈ sentGoF f s cur, p ≠ [] ∧ Trimmed p := by
  intro f
  induction f with
  | zero =>
    intro s cur hlen hA _ hC hD p hp
    obtain rfl : s = [] := List.length_eq_zero.mp (Nat.le_zero.mp hlen)
    obtain rfl : p = cur.reverse := by simpa [sentGoF] using hp
    refine ⟨by simpa using hD, trimmed_of_ends ?_ ?_⟩
    · intro c hc
      rw [List.head?_reverse] at hc
      exact hA c hc
    · intro c hc
      exact hC c (by simpa using hc)
  | succ f ih =>
    intro s cur hlen hA hB hC hD p hp
    cases s with
    | nil =>
      obtain rfl : p = cur.reverse := by simpa [sentGoF] using hp
      refine ⟨by simpa using hD, trimmed_of_ends ?_ ?_⟩
      · intro c hc
        rw [List.head?_reverse] at hc
        exact hA c hc
      · intro c hc
        exact hC c (by simpa using hc)
    | cons c rest =>
      rw [sentGoF] at hp
      by_cases hbr : (c = '.' ∨ c = '!' ∨ c = '?') ∧ sentBreakAfter rest = true
      · rw [if_pos hbr] at hp
        obtain ⟨d, tail, hdw, hupper⟩ := sentBreakAfter_drop hbr.2
        have hdne : rest.dropWhile isWS ≠ [] := by rw [hdw]; simp
        have hrestne : rest ≠ [] := by
          intro h0
          rw [h0] at hdw
          cases hdw
        rcases List.mem_cons.mp hp with rfl | hp'
        · refine ⟨by simp, trimmed_of_ends ?_ ?_⟩
          · intro c' hc'
            cases hcur : cur with
            | nil =>
              rw [hcur] at hc'
              simp at hc'
              rw [← hc']
              rcases hbr.1 with rfl | rfl | rfl <;> decide
            | cons c0 cs =>
              rw [hcur, head?_append_ne_nil (by simp)] at hc'
              rw [List.head?_reverse] at hc'
              rw [← hcur] at hc'
              exact hA c' hc'
          · intro c' hc'
            rw [getLast?_append_ne_nil (by simp)] at hc'
            simp at hc'
            rw [← hc']
            rcases hbr.1 with rfl | rfl | rfl <;> decide
        · refine ih (rest.dropWhile isWS) [] ?_ ?_ ?_ ?_ ?_ p hp'
          · have := length_dropWhile_le' isWS rest
            simp at hlen
            omega
          · intro c' hc'
            cases hc'
          · intro _ c' hc'
            rw [hdw] at hc'
            simp at hc'
            rw [← hc']
            exact not_ws_of_upper hupper
          · intro c' hc'
            simp only [List.reverse_nil, List.nil_append] at hc'
            have h1 : (rest.dropWhile isWS).getLast? = rest.getLast? := by
              conv_rhs => rw [← List.takeWhile_append_dropWhile (p := isWS) (l := rest)]
              rw [getLast?_append_ne_nil hdne]
            apply hC c'
            rw [getLast?_append_ne_nil (by simp), getLast?_cons_ne_nil hrestne,
              ← h1]
            exact hc'
          · simpa using hdne
      · rw [if_neg hbr] at hp
        refine ih rest (c :: cur) ?_ ?_ ?_ ?_ ?_ p hp
        · simp at hlen
          omega
        · intro c' hc'
          cases hcur : cur with
          | nil =>
            rw [hcur] at hc'
            simp at hc'
            exact hB hcur c' (by rw [← hc']; rfl)
          | cons c0 cs =>
            rw [hcur, getLast?_cons_ne_nil (by simp), ← hcur] at hc'
            exact hA c' hc'
        · intro h0
          exact absurd h0 (List.cons_ne_nil _ _)
        · intro c' hc'
          apply hC c'
          rw [show (c :: cur).reverse ++ rest = cur.reverse ++ c :: rest by simp] at hc'
          exact hc'
        · simp

theorem splitSentences_words (p : Str) :
    ((splitSentences p).map wordsOf).flatten = wordsOf p := by
  simpa using sentGoF_words p.length p [] (le_refl _)

theorem splitSentences_pieces {p : Str} (hne : p ≠ []) (htr : Trimmed p) :
    ∀ q ∈ splitSentences p, q ≠ [] ∧ Trimmed q := by
  apply sentGoF_pieces p.length p [] (le_refl _)
  · intro c hc
    cases hc
  · intro _ c hc
    exact trimmed_head htr c hc
  · intro c hc
    exact trimmed_last htr c (by simpa using hc)
  · simpa using hne

theorem sentGoF_part : ∀ (f : Nat) (s cur : Str),
    ∀ q ∈ sentGoF f s cur, q <:+: (cur.reverse ++ s) := by
  intro f
  induction f with
  | zero =>
    intro s cur q hq
    obtain rfl : q = cur.reverse := by simpa [sentGoF] using hq
    exact ⟨[], s, by simp⟩
  | succ f ih =>
    intro s cur q hq
    cases s with
    | nil =>
      obtain rfl : q = cur.reverse := by simpa [sentGoF] using hq
      exact ⟨[], [], by simp⟩
    | cons c rest =>
      rw [sentGoF] at hq
      by_cases hbr : (c = '.' ∨ c = '!' ∨ c = '?') ∧ sentBreakAfter rest = true
      · rw [if_pos hbr] at hq
        rcases List.mem_cons.mp hq with rfl | hq'
        · exact ⟨[], rest, by simp⟩
        · have h1 := ih (rest.dropWhile isWS) [] q hq'
          simp only [List.reverse_nil, List.nil_append] at h1
          have h2 : rest.dropWhile isWS <:+ cur.reverse ++ c :: rest := by
            obtain ⟨t, ht⟩ := List.dropWhile_suffix (l := rest) isWS
            refine ⟨cur.reverse ++ c :: t, ?_⟩
            conv_rhs => rw [← ht]
            simp
          exact h1.trans h2.isInfix
      · rw [if_neg hbr] at hq
        have := ih rest (c :: cur) q hq
        simpa using this

theorem splitNNAux_part : ∀ (s cur : Str),
    ∀ q ∈ splitNNAux s cur, q <:+: (cur.reverse ++ s) := by
  intro s cur
  induction s, cur using splitNNAux.induct with
  | case1 cur =>
    intro q hq
    obtain rfl : q = cur.reverse := by simpa [splitNNAux] using hq
    exact ⟨[], [], by simp⟩
  | case2 rest cur ih =>
    intro q hq
    rw [splitNNAux] at hq
    rcases List.mem_cons.mp hq with rfl | hq'
    · exact ⟨[], '\n' :: '\n' :: rest, by simp⟩
    · have h1 := ih q hq'
      simp only [List.reverse_nil, List.nil_append] at h1
      exact h1.trans ⟨cur.reverse ++ ['\n', '\n'], [], by simp⟩
  | case3 c rest cur h ih =>
    intro q hq
    rw [splitNNAux.eq_3 _ _ _ h] at hq
    have := ih q hq
    simpa using this

theorem splitNN_part (s : Str) : ∀ q ∈ splitNN s, q <:+: s := by
  intro q hq
  simpa using splitNNAux_part s [] q hq

/-! ## `_create_chunk` access lemmas -/

theorem dupdate_ite (cm m : Dict) :
    (if m.isEmpty then cm else dupdate cm m) = dupdate cm m := by
  cases m with
  | nil => simp [dupdate]
  | cons kv rest => rfl

theorem dget_none_iff (d : Dict) (k : String) :
    dget d k = none ↔ ∀ kv ∈ d, k ≠ kv.1 := by
  induction d with
  | nil => simp [dget]
  | cons kv rest ih =>
    rw [dget]
    by_cases hk : k = kv.1
    · rw [if_pos hk]
      simp [hk]
    · rw [if_neg hk, ih]
      constructor
      · intro h kv' hkv'
        rcases List.mem_cons.mp hkv' with rfl | h2
        · exact hk
        · exact h kv' h2
      · intro h kv' hkv'
        exact h kv' (List.mem_cons_of_mem _ hkv')

theorem dgetLast_none_iff (d : Dict) (k : String) :
    dgetLast d k = none ↔ dget d k = none := by
  rw [dgetLast, dget_none_iff, dget_none_iff]
  constructor
  · intro h kv hkv
    exact h kv (List.mem_reverse.mpr hkv)
  · intro h kv hkv
    exact h kv (List.mem_reverse.mp hkv)

theorem dget_dupdate_none {a b : Dict} {k : String}
    (ha : dget a k = none) (hb : dget b k = none) :
    dget (dupdate a b) k = none := by
  rw [dget_dupdate, (dgetLast_none_iff b k).mpr hb, ha]
  rfl

theorem create_chunk_eq (dp : DP) (arg : Str) (md : Dict) :
    create_chunk dp arg md
      = dset (dupdate [("text", .s (trimL arg)),
          ("token_count", .n (tokLen dp.tok arg))] md) "id" (.s (createId md)) := by
  cases md <;> rfl

theorem dget_create_text {dp : DP} {arg : Str} {md : Dict}
    (h : dget md "text" = none) :
    dget (create_chunk dp arg md) "text" = some (.s (trimL arg)) := by
  rw [create_chunk_eq, dget_dset_ne _ _ _ _ (by decide), dget_dupdate,
    (dgetLast_none_iff _ _).mpr h]
  simp [Option.orElse, dget]

theorem dget_create_token {dp : DP} {arg : Str} {md : Dict}
    (h : dget md "token_count" = none) :
    dget (create_chunk dp arg md) "token_count"
      = some (.n (tokLen dp.tok arg)) := by
  rw [create_chunk_eq, dget_dset_ne _ _ _ _ (by decide), dget_dupdate,
    (dgetLast_none_iff _ _).mpr h]
  simp [Option.orElse, dget]

theorem dget_create_id (dp : DP) (arg : Str) (md : Dict) :
    dget (create_chunk dp arg md) "id" = some (.s (createId md)) := by
  rw [create_chunk_eq, dget_dset_self]

theorem dget_create_other {dp : DP} {arg : Str} {md : Dict} {k : String}
    (hid : k ≠ "id") (ht : k ≠ "text") (htc : k ≠ "token_count") :
    dget (create_chunk dp arg md) k = dgetLast md k := by
  rw [create_chunk_eq, dget_dset_ne _ _ _ _ hid, dget_dupdate]
  cases hl : dgetLast md k with
  | none =>
    simp only [Option.orElse]
    simp [dget, ht, htc]
  | some v => rfl

theorem dset_keys_subset (d : Dict) (k : String) (v : PyVal) :
    ∀ k' ∈ (dset d k v).map Prod.fst, k' = k ∨ k' ∈ d.map Prod.fst := by
  induction d with
  | nil => simp [dset]
  | cons kv rest ih =>
    intro k' hk'
    by_cases hk : k = kv.1
    · rw [show dset (kv :: rest) k v = (kv.1, v) :: rest by
        simp [dset, hk]] at hk'
      simp at hk'
      rcases hk' with rfl | h
      · right; simp
      · right; simp [h]
    · rw [show dset (kv :: rest) k v = kv :: dset rest k v by
        simp [dset, hk]] at hk'
      simp at hk'
      rcases hk' with rfl | h
      · right; simp
      · rcases ih k' (by simpa using h) with h1 | h1
        · left; exact h1
        · right; simp [h1]

theorem nodupKeys_dset {d : Dict} (h : NodupKeys d) (k : String) (v : PyVal) :
    NodupKeys (dset d k v) := by
  induction d with
  | nil => simp [dset, NodupKeys]
  | cons kv rest ih =>
    unfold NodupKeys at h ⊢
    rw [List.map_cons, List.nodup_cons] at h
    by_cases hk : k = kv.1
    · rw [show dset (kv :: rest) k v = (kv.1, v) :: rest by simp [dset, hk]]
      rw [List.map_cons, List.nodup_cons]
      exact h
    · rw [show dset (kv :: rest) k v = kv :: dset rest k v by simp [dset, hk]]
      rw [List.map_cons, List.nodup_cons]
      refine ⟨?_, ih h.2⟩
      intro hmem
      rcases dset_keys_subset rest k v kv.1 hmem with h1 | h1
      · exact hk h1.symm
      · exact h.1 h1

theorem nodupKeys_dupdate {a : Dict} (h : NodupKeys a) (b : Dict) :
    NodupKeys (dupdate a b) := by
  induction b generalizing a with
  | nil => exact h
  | cons kv rest ih =>
    rw [show dupdate a (kv :: rest) = dupdate (dset a kv.1 kv.2) rest by
      simp [dupdate]]
    exact ih (nodupKeys_dset h kv.1 kv.2)

theorem dgetLast_eq_dget {d : Dict} (h : NodupKeys d) (k : String) :
    dgetLast d k = dget d k := by
  induction d with
  | nil => rfl
  | cons kv rest ih =>
    unfold NodupKeys at h
    rw [List.map_cons, List.nodup_cons] at h
    rw [dgetLast_cons, dget]
    by_cases hk : k = kv.1
    · have hrest : dget rest k = none := by
        rw [dget_none_iff]
        intro kv' hkv' hkk
        exact h.1 (by
          rw [hk] at hkk
          rw [hkk]
          exact List.mem_map_of_mem Prod.fst hkv')
      rw [ih h.2, hrest, if_pos hk]
      simp [Option.orElse, hk]
    · rw [ih h.2, if_neg hk]
      cases hd : dget rest k with
      | none => simp [Option.orElse, hk]
      | some v => simp [Option.orElse, hk]

/-! ## The chunk metadata dicts -/

theorem nodupKeys_cmTable (sec : PySection) (i : Nat) :
    NodupKeys (cmTable sec i) := by
  simp [NodupKeys, cmTable]

theorem nodupKeys_cmText (sec : PySection) : NodupKeys (cmText sec) := by
  simp [NodupKeys, cmText]

theorem dget_dupdate_base_of_none {base meta : Dict} {k : String}
    (hmeta : dget meta k = none) :
    dget (dupdate base meta) k = dget base k := by
  rw [dget_dupdate, (dgetLast_none_iff _ _).mpr hmeta]
  simp [Option.orElse]

theorem chunkText_create {dp : DP} {arg : Str} {md : Dict}
    (h : dget md "text" = none) :
    chunkText (create_chunk dp arg md) = trimL arg := by
  rw [chunkText, dget_create_text h]

theorem wTxt_create {dp : DP} {arg : Str} {md : Dict} (h : dget md "text" = none) :
    wTxt (create_chunk dp arg md) = wordsOf arg := by
  rw [wTxt, chunkText_create h, wordsOf_trimL]

/-! ## Words preservation through the two chunking strategies -/

theorem words_flush_trim {dp : DP} {cm : Dict} (hcm : dget cm "text" = none)
    (cur : Str) :
    (((if cur ≠ [] then [create_chunk dp (trimL cur) cm] else []) : List Dict).map
      wTxt).flatten = wordsOf cur := by
  by_cases hc : cur = []
  · simp [hc, wordsOf_nil]
  · simp only [if_pos hc, List.map_cons, List.map_nil, List.flatten_cons,
      List.flatten_nil, List.append_nil, wTxt_create hcm, wordsOf_trimL]

theorem words_flush_raw {dp : DP} {cm : Dict} (hcm : dget cm "text" = none)
    (cur : Str) :
    (((if cur ≠ [] then [create_chunk dp cur cm] else []) : List Dict).map
      wTxt).flatten = wordsOf cur := by
  by_cases hc : cur = []
  · simp [hc, wordsOf_nil]
  · simp only [if_pos hc, List.map_cons, List.map_nil, List.flatten_cons,
      List.flatten_nil, List.append_nil, wTxt_create hcm]

theorem words_flush_end {dp : DP} {cm : Dict} (hcm : dget cm "text" = none)
    (cur : Str) :
    (((if trimL cur ≠ [] then [create_chunk dp (trimL cur) cm] else []) : List Dict).map
      wTxt).flatten = wordsOf cur := by
  by_cases hc : trimL cur = []
  · simp [hc, trimL_nil_words hc]
  · simp only [if_pos hc, List.map_cons, List.map_nil, List.flatten_cons,
      List.flatten_nil, List.append_nil, wTxt_create hcm, trimL_idem, wordsOf_trimL]

theorem words_append_of_nl_inv {cur r : Str}
    (hinv : cur = [] ∨ ∃ cur₀, cur = cur₀ ++ ['\n']) :
    wordsOf (cur ++ r) = wordsOf cur ++ wordsOf r := by
  rcases hinv with rfl | ⟨cur₀, rfl⟩
  · simp [wordsOf_nil]
  · rw [List.append_assoc, List.singleton_append,
      wordsOf_append_ws (by decide : isWS '\n' = true),
      wordsOf_append_ws_right (by decide : isWS '\n' = true)]

theorem rowsLoop_words {dp : DP} {cm : Dict} (hcm : dget cm "text" = none) :
    ∀ (rs : List Str) (cur : Str) (ct : Nat),
      (cur = [] ∨ ∃ cur₀, cur = cur₀ ++ ['\n']) →
      ((rowsLoop dp cm rs cur ct).map wTxt).flatten
        = wordsOf cur ++ (rs.map wordsOf).flatten := by
  intro rs
  induction rs with
  | nil =>
    intro cur ct _
    rw [rowsLoop, words_flush_end hcm]
    simp
  | cons r rs ih =>
    intro cur ct hinv
    rw [rowsLoop]
    by_cases hover : ct + tokLen dp.tok r > dp.chunk_size
    · rw [if_pos hover, List.map_append, List.flatten_append,
        words_flush_trim hcm, ih (r ++ ['\n']) _ (Or.inr ⟨r, rfl⟩),
        wordsOf_append_ws_right (by decide : isWS '\n' = true)]
      simp
    · rw [if_neg hover,
        ih (cur ++ r ++ ['\n']) _ (Or.inr ⟨cur ++ r, rfl⟩),
        wordsOf_append_ws_right (by decide : isWS '\n' = true),
        words_append_of_nl_inv hinv]
      simp

theorem dget_cmTable_text (sec : PySection) (i : Nat) :
    dget (cmTable sec i) "text" = none := by
  simp [cmTable, dget]

theorem dget_cmText_text (sec : PySection) :
    dget (cmText sec) "text" = none := by
  simp [cmText, dget]

theorem wordsOf_splitCh_nl (s : Str) :
    ((splitCh '\n' s).map wordsOf).flatten = wordsOf s := by
  calc ((splitCh '\n' s).map wordsOf).flatten
      = wordsOf (joinSep ['\n'] (splitCh '\n' s)) := (wordsOf_joinSep_nl _).symm
    _ = wordsOf s := by rw [splitCh_join]

theorem flatten_map_flatten {α β : Type} (f : α → List β) (Ls : List (List α)) :
    ((Ls.flatten).map f).flatten
      = (Ls.map (fun l => ((l.map f).flatten))).flatten := by
  induction Ls with
  | nil => rfl
  | cons l Ls ih =>
    simp only [List.flatten_cons, List.map_cons, List.map_append,
      List.flatten_append, ih]

theorem chunk_financial_tables_eq (dp : DP) (content : Str) (sec : PySection)
    (metadata : Dict) :
    chunk_financial_tables dp content sec metadata
      = ((tableSpans content).enum.map (tableOne dp sec metadata)).flatten := rfl

theorem tableOne_words (dp : DP) (sec : PySection) {meta : Dict}
    (hmeta : dget meta "text" = none) (it : Nat × Str) :
    ((tableOne dp sec meta it).map wTxt).flatten = wordsOf it.2 := by
  unfold tableOne
  simp only [dupdate_ite]
  have hcm : dget (dupdate (cmTable sec it.1) meta) "text" = none := by
    rw [dget_dupdate_base_of_none hmeta, dget_cmTable_text]
  by_cases hempty : trimL it.2 = []
  · simp only [hempty, if_pos rfl]
    rw [trimL_nil_words hempty]
    rfl
  · simp only [if_neg hempty]
    by_cases hfit : tokLen dp.tok (trimL it.2) ≤ dp.chunk_size
    · simp only [if_pos hfit, List.map_cons, List.map_nil, List.flatten_cons,
        List.flatten_nil, List.append_nil, wTxt_create hcm, wordsOf_trimL]
    · simp only [if_neg hfit]
      rw [rowsLoop_words hcm _ [] 0 (Or.inl rfl), wordsOf_splitCh_nl,
        wordsOf_trimL, wordsOf_nil, List.nil_append]

theorem chunk_financial_tables_words (dp : DP) (sec : PySection) {meta : Dict}
    (hmeta : dget meta "text" = none) (content : Str) :
    ((chunk_financial_tables dp content sec meta).map wTxt).flatten
      = ((tableSpans content).map wordsOf).flatten := by
  rw [chunk_financial_tables_eq, flatten_map_flatten, List.map_map]
  have h1 : ((tableSpans content).enum).map
        ((fun l => (l.map wTxt).flatten) ∘ tableOne dp sec meta)
      = ((tableSpans content).enum).map (fun it => wordsOf it.2) :=
    List.map_congr_left (fun it _ => tableOne_words dp sec hmeta it)
  rw [h1]
  have h2 : ((tableSpans content).enum).map (fun it => wordsOf it.2)
      = (tableSpans content).map wordsOf := by
    conv_rhs => rw [← List.enum_map_snd (tableSpans content), List.map_map]
    rfl
  rw [h2]

theorem words_join_space (cur s : Str) :
    wordsOf (if cur ≠ [] then cur ++ " ".data ++ s else s)
      = wordsOf cur ++ wordsOf s := by
  by_cases hc : cur = []
  · simp [hc, wordsOf_nil]
  · rw [if_pos hc, show cur ++ " ".data ++ s = cur ++ ' ' :: s by simp,
      wordsOf_append_ws (by decide : isWS ' ' = true)]

theorem words_join_nn (cur s : Str) :
    wordsOf (if cur ≠ [] then cur ++ "\n\n".data ++ s else s)
      = wordsOf cur ++ wordsOf s := by
  by_cases hc : cur = []
  · simp [hc, wordsOf_nil]
  · rw [if_pos hc,
      show cur ++ "\n\n".data ++ s = cur ++ '\n' :: ('\n' :: s) by simp,
      wordsOf_append_ws (by decide : isWS '\n' = true),
      wordsOf_cons_ws (by decide : isWS '\n' = true)]

theorem sentLoop_words {dp : DP} {cm : Dict} (hcm : dget cm "text" = none) :
    ∀ (ss : List Str) (chunks : List Dict) (cur : Str) (ct : Nat),
      (((sentLoop dp cm ss chunks cur ct).1).map wTxt).flatten
          ++ wordsOf (sentLoop dp cm ss chunks cur ct).2.1
        = (chunks.map wTxt).flatten ++ wordsOf cur ++ (ss.map wordsOf).flatten := by
  intro ss
  induction ss with
  | nil =>
    intro chunks cur ct
    simp [sentLoop]
  | cons s ss ih =>
    intro chunks cur ct
    rw [sentLoop]
    by_cases hover : ct + tokLen dp.tok s > dp.chunk_size
    · rw [if_pos hover, ih]
      rw [List.map_append, List.flatten_append, words_flush_raw hcm]
      simp [List.append_assoc]
    · rw [if_neg hover, ih, words_join_space]
      simp [List.append_assoc]

theorem paraLoop_words {dp : DP} {cm : Dict} (hcm : dget cm "text" = none) :
    ∀ (ps : List Str) (chunks : List Dict) (cur : Str) (ct : Nat),
      ((paraLoop dp cm ps chunks cur ct).map wTxt).flatten
        = (chunks.map wTxt).flatten ++ wordsOf cur ++ (ps.map wordsOf).flatten := by
  intro ps
  induction ps with
  | nil =>
    intro chunks cur ct
    rw [paraLoop, List.map_append, List.flatten_append, words_flush_raw hcm]
    simp
  | cons p ps ih =>
    intro chunks cur ct
    rw [paraLoop]
    by_cases hempty : trimL p = []
    · rw [if_pos hempty, ih, List.map_cons, List.flatten_cons,
        show wordsOf p = [] from by rw [← wordsOf_trimL, hempty, wordsOf_nil]]
      simp
    · rw [if_neg hempty]
      by_cases hbig : tokLen dp.tok (trimL p) > dp.chunk_size
      · rw [if_pos hbig, ih]
        have hs := @sentLoop_words dp _ hcm (splitSentences (trimL p)) chunks cur ct
        rw [splitSentences_words, wordsOf_trimL] at hs
        rw [hs]
        simp [List.append_assoc]
      · rw [if_neg hbig]
        by_cases hover : ct + tokLen dp.tok (trimL p) > dp.chunk_size
        · rw [if_pos hover, ih, List.map_append, List.flatten_append,
            words_flush_raw hcm, wordsOf_trimL]
          simp [List.append_assoc]
        · rw [if_neg hover, ih, words_join_nn, wordsOf_trimL]
          simp [List.append_assoc]

theorem chunk_regular_content_words (dp : DP) (sec : PySection) {meta : Dict}
    (hmeta : dget meta "text" = none) (content : Str) :
    ((chunk_regular_content dp content sec meta).map wTxt).flatten
      = wordsOf content := by
  unfold chunk_regular_content
  simp only [dupdate_ite]
  have hcm : dget (dupdate (cmText sec) meta) "text" = none := by
    rw [dget_dupdate_base_of_none hmeta, dget_cmText_text]
  rw [paraLoop_words hcm, wordsOf_splitNN]
  simp [wordsOf_nil]

theorem chunk_section_words (dp : DP) (sec : PySection) {meta : Dict}
    (hmeta : dget meta "text" = none) :
    ((chunk_section dp sec meta).map wTxt).flatten
      = ((tableSpans sec.content).map wordsOf).flatten
          ++ wordsOf (removeTableSpans sec.content) := by
  unfold chunk_section
  by_cases hc : containsSub OPEN sec.content = true
  · simp only [hc, if_true, List.map_append, List.flatten_append]
    rw [chunk_financial_tables_words dp sec hmeta]
    congr 1
    by_cases hres : trimL (removeTableSpans sec.content) = []
    · rw [if_neg (by simp [hres]), trimL_nil_words hres]
      simp
    · rw [if_pos hres, chunk_regular_content_words dp sec hmeta]
  · simp only [if_neg hc]
    rw [tableSpans_of_not_contains (by simpa using hc),
      removeTableSpans_of_not_contains (by simpa using hc)]
    simp only [List.map_nil, List.flatten_nil, List.nil_append]
    by_cases hres : trimL sec.content = []
    · rw [if_neg (by simp [hres]), trimL_nil_words hres]
      simp
    · rw [if_pos hres, chunk_regular_content_words dp sec hmeta]

theorem trimL_no_nl {l : Str} (h : '\n' ∉ l) : '\n' ∉ trimL l :=
  fun hmem => h ((trimL_part l).subset hmem)

theorem goodLine_of_kept {l : Str} (hl : '\n' ∉ l) (hne : trimL l ≠ []) :
    GoodLine (trimL l) :=
  ⟨hne, trimmed_trimL l, trimL_no_nl hl⟩

theorem trimL_joinNL_goodlines {L0 : List Str} (h : ∀ l ∈ L0, GoodLine l) :
    trimL (joinNL L0) = joinSep ['\n'] L0 :=
  trimL_joinNL (fun p hp => ⟨(h p hp).1, (h p hp).2.1⟩)

theorem joinSep_nl_ne_nil {L0 : List Str} (hne : L0 ≠ [])
    (h : ∀ l ∈ L0, GoodLine l) : joinSep ['\n'] L0 ≠ [] :=
  joinSep_ne_nil hne (fun p hp => (h p hp).1)

theorem splitCh_joinSep_goodlines {L0 : List Str} (hne : L0 ≠ [])
    (h : ∀ l ∈ L0, GoodLine l) :
    splitCh '\n' (joinSep ['\n'] L0) = L0 :=
  splitCh_joinSep_nl hne (fun p hp => (h p hp).2.2)

theorem identifyLoop_lines :
    ∀ (ls : List Str) (secs : List PySection) (L0 : List Str)
      (title : Str) (lvl : Nat),
      (∀ l ∈ L0, GoodLine l) → (∀ l ∈ ls, '\n' ∉ l) →
      ((identifyLoop ls secs (joinNL L0) title lvl).map
          (fun s => splitCh '\n' s.content)).flatten
        = (secs.map (fun s => splitCh '\n' s.content)).flatten
            ++ L0 ++ contentLinesOf ls := by
  intro ls
  induction ls with
  | nil =>
    intro secs L0 title lvl hL0 _
    rw [identifyLoop]
    cases hL : L0 with
    | nil =>
      simp [joinNL, trimL, contentLinesOf]
    | cons l0 L0' =>
      rw [← hL]
      have hjoin : trimL (joinNL L0) = joinSep ['\n'] L0 :=
        trimL_joinNL_goodlines hL0
      have hne : joinSep ['\n'] L0 ≠ [] :=
        joinSep_nl_ne_nil (by rw [hL]; simp) hL0
      rw [if_pos (by rw [hjoin]; exact hne), hjoin]
      simp only [List.map_append, List.flatten_append, List.map_cons,
        List.map_nil, List.flatten_cons, List.flatten_nil]
      rw [splitCh_joinSep_goodlines (by rw [hL]; simp) hL0]
      simp [contentLinesOf]
  | cons l₀ ls ih =>
    intro secs L0 title lvl hL0 hnl
    rw [identifyLoop]
    have hnl0 : '\n' ∉ l₀ := hnl l₀ (List.mem_cons_self _ _)
    have hnls : ∀ l ∈ ls, '\n' ∉ l := fun l hl => hnl l (List.mem_cons_of_mem _ hl)
    by_cases hS : "SECTION_".data.isPrefixOf (trimL l₀) = true
    · rw [if_pos hS]
      have hdrop : contentLinesOf (l₀ :: ls) = contentLinesOf ls := by
        unfold contentLinesOf
        rw [List.map_cons, List.filter_cons,
          if_neg (by simp [keepLine, hS])]
      rw [hdrop]
      by_cases hcur : trimL (joinNL L0) ≠ []
      · rw [if_pos hcur]
        have hL0ne : L0 ≠ [] := by
          intro h0
          rw [h0] at hcur
          exact hcur (by simp [joinNL, trimL])
        have harg := fun (t' : Str) (lv' : Nat) =>
          ih (secs ++ [⟨title, trimL (joinNL L0), lvl,
            classify_section_type title⟩]) [] t' lv' (by simp) hnls
        simp only [show joinNL ([] : List Str) = ([] : Str) from rfl] at harg
        rw [harg]
        simp only [List.map_append, List.flatten_append, List.map_cons,
          List.map_nil, List.flatten_cons, List.flatten_nil]
        rw [trimL_joinNL_goodlines hL0, splitCh_joinSep_goodlines hL0ne hL0]
        simp
      · rw [if_neg hcur]
        have hL0nil : L0 = [] := by
          cases hL : L0 with
          | nil => rfl
          | cons a b =>
            exfalso
            apply hcur
            rw [trimL_joinNL_goodlines hL0]
            exact joinSep_nl_ne_nil (by rw [hL]; simp) hL0
        have harg := fun (t' : Str) (lv' : Nat) =>
          ih secs [] t' lv' (by simp) hnls
        simp only [show joinNL ([] : List Str) = ([] : Str) from rfl] at harg
        rw [harg, hL0nil]
    · rw [if_neg hS]
      by_cases hE : "=".data.isPrefixOf (trimL l₀) = true
      · rw [if_pos hE]
        have hdrop : contentLinesOf (l₀ :: ls) = contentLinesOf ls := by
          unfold contentLinesOf
          rw [List.map_cons, List.filter_cons,
            if_neg (by simp [keepLine, hE])]
        rw [hdrop, ih secs L0 title lvl hL0 hnls]
      · rw [if_neg hE]
        by_cases hne : trimL l₀ ≠ []
        · rw [if_pos hne]
          have hkeep : contentLinesOf (l₀ :: ls) = trimL l₀ :: contentLinesOf ls := by
            unfold contentLinesOf
            rw [List.map_cons, List.filter_cons,
              if_pos (by simp [keepLine, hS, hE, hne])]
          have hcur' : joinNL L0 ++ trimL l₀ ++ ['\n'] = joinNL (L0 ++ [trimL l₀]) := by
            rw [joinNL_append]
            simp [joinNL]
          rw [hcur', ih secs (L0 ++ [trimL l₀]) title lvl
            (by
              intro l hl
              rcases List.mem_append.mp hl with h | h
              · exact hL0 l h
              · rw [List.mem_singleton.mp h]
                exact goodLine_of_kept hnl0 hne) hnls,
            hkeep]
          simp
        · rw [if_neg hne]
          rw [Ne, not_not] at hne
          have hdrop : contentLinesOf (l₀ :: ls) = contentLinesOf ls := by
            unfold contentLinesOf
            rw [List.map_cons, List.filter_cons,
              if_neg (by simp [keepLine, hne])]
          rw [hdrop, ih secs L0 title lvl hL0 hnls]

theorem identify_sections_lines {T : Str} (h : contentLines T ≠ []) :
    ((identify_sections T).map (fun s => splitCh '\n' s.content)).flatten
      = contentLines T := by
  unfold identify_sections
  have harg := identifyLoop_lines (splitCh '\n' T) [] [] [] 0 (by simp)
    (fun l hl => splitCh_no_sep '\n' T l hl)
  simp only [show joinNL ([] : List Str) = ([] : Str) from rfl] at harg
  by_cases hsecs : identifyLoop (splitCh '\n' T) [] [] [] 0 = []
  · exfalso
    rw [hsecs] at harg
    simp at harg
    exact h (by rw [contentLines, ← harg])
  · rw [if_neg hsecs, harg]
    simp [contentLines]

theorem identifyLoop_noSection :
    ∀ (ls : List Str) (secs : List PySection) (L0 : List Str)
      (title : Str) (lvl : Nat),
      (∀ l ∈ ls, "SECTION_".data.isPrefixOf (trimL l) = false) →
      (∀ l ∈ L0, GoodLine l) → (∀ l ∈ ls, '\n' ∉ l) →
      identifyLoop ls secs (joinNL L0) title lvl
        = secs ++ (if L0 ++ contentLinesOf ls = [] then []
            else [⟨title, joinSep ['\n'] (L0 ++ contentLinesOf ls), lvl,
                   classify_section_type title⟩]) := by
  intro ls
  induction ls with
  | nil =>
    intro secs L0 title lvl _ hL0 _
    rw [identifyLoop]
    cases hL : L0 with
    | nil => simp [joinNL, trimL, contentLinesOf]
    | cons l0 L0' =>
      rw [← hL]
      have hjoin : trimL (joinNL L0) = joinSep ['\n'] L0 :=
        trimL_joinNL_goodlines hL0
      have hne : joinSep ['\n'] L0 ≠ [] :=
        joinSep_nl_ne_nil (by rw [hL]; simp) hL0
      rw [if_pos (by rw [hjoin]; exact hne), hjoin]
      rw [if_neg (by rw [hL]; simp [contentLinesOf]), show contentLinesOf [] = [] from rfl]
      simp
  | cons l₀ ls ih =>
    intro secs L0 title lvl hnoS hL0 hnl
    rw [identifyLoop]
    have hnl0 : '\n' ∉ l₀ := hnl l₀ (List.mem_cons_self _ _)
    have hnls : ∀ l ∈ ls, '\n' ∉ l := fun l hl => hnl l (List.mem_cons_of_mem _ hl)
    have hnoS0 : "SECTION_".data.isPrefixOf (trimL l₀) = false :=
      hnoS l₀ (List.mem_cons_self _ _)
    have hnoSs : ∀ l ∈ ls, "SECTION_".data.isPrefixOf (trimL l) = false :=
      fun l hl => hnoS l (List.mem_cons_of_mem _ hl)
    rw [if_neg (by simp [hnoS0])]
    by_cases hE : "=".data.isPrefixOf (trimL l₀) = true
    · rw [if_pos hE]
      have hdrop : contentLinesOf (l₀ :: ls) = contentLinesOf ls := by
        unfold contentLinesOf
        rw [List.map_cons, List.filter_cons, if_neg (by simp [keepLine, hE])]
      rw [hdrop, ih secs L0 title lvl hnoSs hL0 hnls]
    · rw [if_neg hE]
      by_cases hne : trimL l₀ ≠ []
      · rw [if_pos hne]
        have hkeep : contentLinesOf (l₀ :: ls)
            = trimL l₀ :: contentLinesOf ls := by
          unfold contentLinesOf
          rw [List.map_cons, List.filter_cons,
            if_pos (by simp [keepLine, hnoS0, hE, hne])]
        have hcur' : joinNL L0 ++ trimL l₀ ++ ['\n'] = joinNL (L0 ++ [trimL l₀]) := by
          rw [joinNL_append]
          simp [joinNL]
        rw [hcur', ih secs (L0 ++ [trimL l₀]) title lvl hnoSs
          (by
            intro l hl
            rcases List.mem_append.mp hl with h | h
            · exact hL0 l h
            · rw [List.mem_singleton.mp h]
              exact goodLine_of_kept hnl0 hne) hnls,
          hkeep]
        have hassoc : (L0 ++ [trimL l₀]) ++ contentLinesOf ls
            = L0 ++ (trimL l₀ :: contentLinesOf ls) := by simp
        rw [hassoc]
      · rw [if_neg hne]
        rw [Ne, not_not] at hne
        have hdrop : contentLinesOf (l₀ :: ls) = contentLinesOf ls := by
          unfold contentLinesOf
          rw [List.map_cons, List.filter_cons, if_neg (by simp [keepLine, hne])]
        rw [hdrop, ih secs L0 title lvl hnoSs hL0 hnls]

theorem identify_sections_noSection {T : Str}
    (h : ∀ l ∈ splitCh '\n' T, "SECTION_".data.isPrefixOf (trimL l) = false) :
    identify_sections T
      = if contentLines T = []
        then [⟨"Document Content".data, T, 1, "general".data⟩]
        else [⟨[], joinSep ['\n'] (contentLines T), 0, "general".data⟩] := by
  unfold identify_sections
  have harg := identifyLoop_noSection (splitCh '\n' T) [] [] [] 0 h (by simp)
    (fun l hl => splitCh_no_sep '\n' T l hl)
  simp only [show joinNL ([] : List Str) = ([] : Str) from rfl] at harg
  rw [harg]
  simp only [contentLines, List.nil_append]
  by_cases hcl : contentLinesOf (splitCh '\n' T) = []
  · simp [hcl]
  · simp [hcl, show classify_section_type [] = "general".data from by decide]

theorem splitCh_no_occurrence {c : Char} {s : Str} (h : c ∉ s) :
    splitCh c s = [s] := by
  calc splitCh c s = splitChAux c (s ++ []) [] := by simp [splitCh]
    _ = splitChAux c [] (s.reverse ++ []) := splitChAux_prepend c s h [] []
    _ = [s] := by simp [splitChAux]

theorem chunk_text_structured_words (dp : DP) (T : Str) {meta : Dict}
    (hmeta : dget meta "text" = none) :
    ((chunk_text_structured dp T meta).map wTxt).flatten
      = ((identify_sections T).map (fun sec =>
          ((tableSpans sec.content).map wordsOf).flatten
            ++ wordsOf (removeTableSpans sec.content))).flatten := by
  unfold chunk_text_structured
  rw [flatten_map_flatten, List.map_map]
  exact congrArg List.flatten
    (List.map_congr_left (fun sec _ => chunk_section_words dp sec hmeta))

/-! ## Claims -/

/-- C1 counterexample: a marked stream with zero header markers and
non-blank content yields one section with empty title and level 0, not the
`"Document Content"` level-1 fallback the claim asserts. -/
theorem c1_counterexample :
    identify_sections "Hello World".data
        = [⟨[], "Hello World".data, 0, "general".data⟩] ∧
    identify_sections "Hello World".data
        ≠ [⟨"Document Content".data, "Hello World".data, 1, "general".data⟩] := by
  decide

/-- C1 (amended): for a marked stream with zero header markers,
`_identify_sections` produces exactly one Section; it is the
`"Document Content"`/level-1/`"general"` fallback holding the entire text
only when the stream has no content line (every line blank or a `=` rule);
otherwise the single Section has empty title, level 0, type `"general"`,
and content the newline-join of the stripped content lines. -/
theorem c1_header_free_single_section (T : Str)
    (h : ∀ l ∈ splitCh '\n' T, "SECTION_".data.isPrefixOf (trimL l) = false) :
    identify_sections T
      = if contentLines T = []
        then [⟨"Document Content".data, T, 1, "general".data⟩]
        else [⟨[], joinSep ['\n'] (contentLines T), 0, "general".data⟩] :=
  identify_sections_noSection h

/-- C1 witness: the amended statement evaluated on a concrete header-free
stream. -/
theorem c1_header_free_single_section_witness :
    identify_sections "Hello World".data
      = if contentLines "Hello World".data = []
        then [⟨"Document Content".data, "Hello World".data, 1, "general".data⟩]
        else [⟨[], joinSep ['\n'] (contentLines "Hello World".data), 0,
               "general".data⟩] :=
  c1_header_free_single_section "Hello World".data (by decide)

/-- C9: `extract_metadata` always sets `filename` and `processed_date`;
`company`/`filing_type`/`year` are present exactly when the filename has at
least 3 underscore-delimited parts, set to the first three parts, and are
absent (not empty strings) otherwise. -/
theorem c9_extract_metadata_fields (filename now : Str) :
    dget (extract_metadata filename now) "filename" = some (.s filename) ∧
    dget (extract_metadata filename now) "processed_date" = some (.s now) ∧
    (match splitCh '_' filename with
     | p0 :: p1 :: p2 :: _ =>
       dget (extract_metadata filename now) "company" = some (.s p0) ∧
       dget (extract_metadata filename now) "filing_type" = some (.s p1) ∧
       dget (extract_metadata filename now) "year" = some (.s p2)
     | _ =>
       dget (extract_metadata filename now) "company" = none ∧
       dget (extract_metadata filename now) "filing_type" = none ∧
       dget (extract_metadata filename now) "year" = none) := by
  unfold extract_metadata
  by_cases hu : filename.any (fun c => c = '_') = true
  · simp only [hu, if_true]
    cases hparts : splitCh '_' filename with
    | nil => exact absurd hparts (splitChAux_ne_nil '_' filename [])
    | cons p0 rest =>
      cases rest with
      | nil => simp [dget, dset]
      | cons p1 rest2 =>
        cases rest2 with
        | nil => simp [dget, dset]
        | cons p2 rest3 => simp [dget, dset]
  · have hnomem : '_' ∉ filename := by
      intro hmem
      exact hu (List.any_eq_true.mpr ⟨'_', hmem, by simp⟩)
    rw [splitCh_no_occurrence hnomem]
    simp [hu, dget]

theorem chunkTextLoop_some {dp : DP} {metadata : Dict} {tokens : List Nat}
    (hstep : dp.chunk_overlap < dp.chunk_size) :
    ∀ (f : Nat) (start : Int) (cid : Int),
      (tokens.length : Int) - start ≤ f →
      (chunkTextLoop dp metadata tokens f start cid).isSome = true := by
  intro f
  induction f with
  | zero =>
    intro start cid hle
    rw [chunkTextLoop, if_neg (by omega)]
    rfl
  | succ f ih =>
    intro start cid hle
    rw [chunkTextLoop]
    by_cases hlt : start < (tokens.length : Int)
    · rw [if_pos hlt]
      have hrec := ih (start + (dp.chunk_size : Int) - (dp.chunk_overlap : Int))
        (cid + 1) (by
          have h1 : (1 : Int) ≤ (dp.chunk_size : Int) - (dp.chunk_overlap : Int) := by
            omega
          omega)
      cases hr : chunkTextLoop dp metadata tokens f
          (start + (dp.chunk_size : Int) - (dp.chunk_overlap : Int)) (cid + 1) with
      | none => rw [hr] at hrec; cases hrec
      | some rest => simp [hr]
    · rw [if_neg hlt]
      rfl

theorem chunkTextLoop_none {dp : DP} {metadata : Dict} {tokens : List Nat}
    (hstep : dp.chunk_size ≤ dp.chunk_overlap) (hne : tokens ≠ []) :
    ∀ (f : Nat) (start : Int) (cid : Int), start ≤ 0 →
      chunkTextLoop dp metadata tokens f start cid = none := by
  have hlen : 0 < (tokens.length : Int) := by
    cases tokens with
    | nil => exact absurd rfl hne
    | cons a b => simp
  intro f
  induction f with
  | zero =>
    intro start cid hs
    rw [chunkTextLoop, if_pos (by omega)]
  | succ f ih =>
    intro start cid hs
    rw [chunkTextLoop, if_pos (by omega)]
    rw [ih (start + (dp.chunk_size : Int) - (dp.chunk_overlap : Int)) (cid + 1)
      (by omega)]
    rfl

/-- C10: the legacy flat `chunk_text` terminates on every input when
`chunk_overlap < chunk_size` (fuel one more than the token count always
suffices), and when `chunk_size ≤ chunk_overlap` it never terminates on a
non-empty token sequence: the loop start never passes the end, so every
fuel bound is exhausted. -/
theorem c10_legacy_chunk_text_termination (dp : DP) (metadata : Dict)
    (text : Str) :
    (dp.chunk_overlap < dp.chunk_size →
      (chunk_text dp ((dp.tok.encode text).length + 1) text metadata).isSome
        = true) ∧
    (dp.chunk_size ≤ dp.chunk_overlap → dp.tok.encode text ≠ [] →
      ∀ fuel, chunk_text dp fuel text metadata = none) := by
  constructor
  · intro hstep
    exact chunkTextLoop_some hstep _ 0 0 (by omega)
  · intro hstep hne fuel
    exact chunkTextLoop_none hstep hne fuel 0 0 (le_refl 0)

/-- C10 witness: concrete termination with size 2 / overlap 1, and
concrete non-termination (every fuel up to a sample value 5) with
size 1 / overlap 1 on a 3-token text. -/
theorem c10_legacy_chunk_text_termination_witness :
    (chunk_text ⟨2, 1, charTok⟩ ((charTok.encode "abc".data).length + 1)
      "abc".data []).isSome = true ∧
    chunk_text ⟨1, 1, charTok⟩ 5 "abc".data [] = none :=
  ⟨(c10_legacy_chunk_text_termination ⟨2, 1, charTok⟩ [] "abc".data).1
      (by decide),
   (c10_legacy_chunk_text_termination ⟨1, 1, charTok⟩ [] "abc".data).2
      (by decide) (by decide) 5⟩

/-- C3: the `chunk_text` the class actually exposes (the second, legacy
definition of the name — Python keeps the later one, so `process_file`
invokes it) returns flat token windows containing the raw section markers,
while the shadowed structure-aware splitter returns marker-free,
structure-split chunks: on a concrete marked input the default output is
NOT that of the structure-aware splitter, and no flag selects between
them. -/
theorem c3_default_is_flat_not_structured :
    (chunk_text dpChar 10 "SECTION_1: Overview\nProfit rose strongly.".data
        []).map (fun cs => cs.map (fun c => c.text))
      = some ["SECTION_1: Overview\nProfit rose strongly.".data] ∧
    (chunk_text_structured dpChar
        "SECTION_1: Overview\nProfit rose strongly.".data []).map chunkText
      = ["Profit rose strongly.".data] ∧
    ("SECTION_1: Overview\nProfit rose strongly.".data : Str)
      ≠ "Profit rose strongly.".data := by
  refine ⟨by decide, by decide, by decide⟩

set_option maxRecDepth 100000 in
/-- C2: on a document with exactly one outermost table (holding one nested
sub-table), the extractor emits TWO `[FINANCIAL_TABLE]` blocks, and the
nested table's serialized rows appear twice — the skip condition
`id(parent_table) not in processed_elements` can never fire because the
parent table is always processed first in document order, so nested tables
are re-emitted, contradicting the claim. -/
theorem c2_nested_table_reemitted :
    countSub OPEN (extract_text_from_html 20 nestedTableDoc) = 2 ∧
    countSub "InnerRowAlpha | InnerRowBeta\nInnerRowGamma | InnerRowDelta".data
      (extract_text_from_html 20 nestedTableDoc) = 2 := by
  refine ⟨by decide, by decide⟩

set_option maxRecDepth 100000 in
/-- C5 counterexample: the extractor keeps the `=== IMPORTANT ... ===`
paragraph (its words appear in the extracted structure), yet no chunk of
the structure-aware pipeline contains any of it — the Section Assembler
silently drops every line beginning with `=`, a discard beyond the
sub-3-character-header and sub-50-character-table exceptions the claim
allows. -/
theorem c5_counterexample :
    (wordsOf (extract_text_from_html 20 noticeDoc)).contains
      "IMPORTANT".data = true ∧
    (((chunk_text_structured dpChar (extract_text_from_html 20 noticeDoc)
        []).map wTxt).flatten).contains "IMPORTANT".data = false := by
  refine ⟨by decide, by decide⟩

/-- C5 (amended): the pipeline loses nothing except what the stated
filters drop. (1) The Section Assembler keeps exactly the stripped
non-blank lines that are not `SECTION_` header lines and not lines
beginning `=`: the concatenation of the produced sections' content lines
is exactly that line sequence. (2) Every section body decomposes exactly
into the alternation of residual segments and `[FINANCIAL_TABLE]` spans
found by the scanner, reassembling to the body verbatim, with `re.sub`
returning exactly the concatenated residual segments and `re.findall` the
spans. (3) Per section, the words of all emitted chunks are exactly the
words of its table spans followed by the words of its residual body —
nothing else is dropped; document-wide the same holds section by
section. -/
theorem c5_no_loss_amended :
    (∀ T : Str, contentLines T ≠ [] →
      ((identify_sections T).map (fun s => splitCh '\n' s.content)).flatten
        = contentLines T) ∧
    (∀ s : Str, reassemble (tableSplit s).1 (tableSplit s).2 = s ∧
      removeTableSpans s = (tableSplit s).1.flatten ∧
      tableSpans s = (tableSplit s).2) ∧
    (∀ (dp : DP) (sec : PySection) (meta : Dict), dget meta "text" = none →
      ((chunk_section dp sec meta).map wTxt).flatten
        = ((tableSpans sec.content).map wordsOf).flatten
            ++ wordsOf (removeTableSpans sec.content)) ∧
    (∀ (dp : DP) (T : Str) (meta : Dict), dget meta "text" = none →
      ((chunk_text_structured dp T meta).map wTxt).flatten
        = ((identify_sections T).map (fun sec =>
            ((tableSpans sec.content).map wordsOf).flatten
              ++ wordsOf (removeTableSpans sec.content))).flatten) :=
  ⟨fun _ h => identify_sections_lines h,
   fun s => ⟨tableSplit_reassemble s, removeTableSpans_eq_split s,
     tableSpans_eq_split s⟩,
   fun dp sec _ hmeta => chunk_section_words dp sec hmeta,
   fun dp T _ hmeta => chunk_text_structured_words dp T hmeta⟩

/-- C5 witness: the amended no-loss statement evaluated on concrete
inputs (a two-line text for the assembler part, a marked body with one
table for the per-section and document parts). -/
theorem c5_no_loss_amended_witness :
    ((identify_sections "Alpha beta.\nGamma delta.".data).map
        (fun s => splitCh '\n' s.content)).flatten
      = contentLines "Alpha beta.\nGamma delta.".data ∧
    ((chunk_text_structured dpChar
        "[FINANCIAL_TABLE]\nRevenue | 100\n[/FINANCIAL_TABLE]\nProse here.".data
        []).map wTxt).flatten
      = ((identify_sections
          "[FINANCIAL_TABLE]\nRevenue | 100\n[/FINANCIAL_TABLE]\nProse here.".data).map
            (fun sec => ((tableSpans sec.content).map wordsOf).flatten
              ++ wordsOf (removeTableSpans sec.content))).flatten :=
  ⟨c5_no_loss_amended.1 "Alpha beta.\nGamma delta.".data (by decide),
   c5_no_loss_amended.2.2.2 dpChar
     "[FINANCIAL_TABLE]\nRevenue | 100\n[/FINANCIAL_TABLE]\nProse here.".data
     [] (by decide)⟩

theorem create_goodTok {dp : DP} {arg : Str} {md : Dict}
    (ht : dget md "text" = none) (htc : dget md "token_count" = none)
    (htr : Trimmed arg) : GoodTok dp (create_chunk dp arg md) := by
  refine ⟨trimL arg, dget_create_text ht, ?_⟩
  rw [show trimL arg = arg from htr]
  exact dget_create_token htc

theorem rowsLoop_goodTok {dp : DP} {cm : Dict}
    (ht : dget cm "text" = none) (htc : dget cm "token_count" = none) :
    ∀ (rs : List Str) (cur : Str) (ct : Nat),
      ∀ c ∈ rowsLoop dp cm rs cur ct, GoodTok dp c := by
  intro rs
  induction rs with
  | nil =>
    intro cur ct c hc
    rw [rowsLoop] at hc
    by_cases hcur : trimL cur ≠ []
    · rw [if_pos hcur] at hc
      rw [List.mem_singleton.mp hc]
      exact create_goodTok ht htc (trimmed_trimL cur)
    · rw [if_neg hcur] at hc
      cases hc
  | cons r rs ih =>
    intro cur ct c hc
    rw [rowsLoop] at hc
    by_cases hover : ct + tokLen dp.tok r > dp.chunk_size
    · rw [if_pos hover] at hc
      rcases List.mem_append.mp hc with h | h
      · by_cases hcur : cur ≠ []
        · rw [if_pos hcur] at h
          rw [List.mem_singleton.mp h]
          exact create_goodTok ht htc (trimmed_trimL cur)
        · rw [if_neg hcur] at h
          cases h
      · exact ih _ _ c h
    · rw [if_neg hover] at hc
      exact ih _ _ c hc

theorem tableOne_goodTok {dp : DP} {sec : PySection} {meta : Dict}
    (ht : dget meta "text" = none) (htc : dget meta "token_count" = none)
    (it : Nat × Str) : ∀ c ∈ tableOne dp sec meta it, GoodTok dp c := by
  intro c hc
  unfold tableOne at hc
  simp only [dupdate_ite] at hc
  have hcmt : dget (dupdate (cmTable sec it.1) meta) "text" = none := by
    rw [dget_dupdate_base_of_none ht, dget_cmTable_text]
  have hcmtc : dget (dupdate (cmTable sec it.1) meta) "token_count" = none := by
    rw [dget_dupdate_base_of_none htc]
    simp [cmTable, dget]
  by_cases hempty : trimL it.2 = []
  · rw [if_pos hempty] at hc
    cases hc
  · rw [if_neg hempty] at hc
    by_cases hfit : tokLen dp.tok (trimL it.2) ≤ dp.chunk_size
    · rw [if_pos hfit] at hc
      rw [List.mem_singleton.mp hc]
      exact create_goodTok hcmt hcmtc (trimmed_trimL it.2)
    · rw [if_neg hfit] at hc
      exact rowsLoop_goodTok hcmt hcmtc _ _ _ c hc

theorem sentLoop_goodTok {dp : DP} {cm : Dict}
    (ht : dget cm "text" = none) (htc : dget cm "token_count" = none) :
    ∀ (ss : List Str) (chunks : List Dict) (cur : Str) (ct : Nat),
      (∀ s ∈ ss, s ≠ [] ∧ Trimmed s) → Trimmed cur →
      (∀ c ∈ chunks, GoodTok dp c) →
      (∀ c ∈ (sentLoop dp cm ss chunks cur ct).1, GoodTok dp c) ∧
        Trimmed (sentLoop dp cm ss chunks cur ct).2.1 := by
  intro ss
  induction ss with
  | nil =>
    intro chunks cur ct _ hcur hchunks
    exact ⟨hchunks, hcur⟩
  | cons s ss ih =>
    intro chunks cur ct hss hcur hchunks
    have hs0 := hss s (List.mem_cons_self _ _)
    have hss' : ∀ q ∈ ss, q ≠ [] ∧ Trimmed q :=
      fun q hq => hss q (List.mem_cons_of_mem _ hq)
    rw [sentLoop]
    by_cases hover : ct + tokLen dp.tok s > dp.chunk_size
    · rw [if_pos hover]
      refine ih _ s _ hss' hs0.2 ?_
      intro c hc
      rcases List.mem_append.mp hc with h | h
      · exact hchunks c h
      · by_cases hcurne : cur ≠ []
        · rw [if_pos hcurne] at h
          rw [List.mem_singleton.mp h]
          exact create_goodTok ht htc hcur
        · rw [if_neg hcurne] at h
          cases h
    · rw [if_neg hover]
      refine ih _ _ _ hss' ?_ hchunks
      by_cases hcurne : cur ≠ []
      · rw [if_pos hcurne]
        exact trimmed_append3 hcur hs0.2 hcurne hs0.1
      · rw [if_neg hcurne]
        exact hs0.2

theorem paraLoop_goodTok {dp : DP} {cm : Dict}
    (ht : dget cm "text" = none) (htc : dget cm "token_count" = none) :
    ∀ (ps : List Str) (chunks : List Dict) (cur : Str) (ct : Nat),
      Trimmed cur → (∀ c ∈ chunks, GoodTok dp c) →
      ∀ c ∈ paraLoop dp cm ps chunks cur ct, GoodTok dp c := by
  intro ps
  induction ps with
  | nil =>
    intro chunks cur ct hcur hchunks c hc
    rw [paraLoop] at hc
    rcases List.mem_append.mp hc with h | h
    · exact hchunks c h
    · by_cases hcurne : cur ≠ []
      · rw [if_pos hcurne] at h
        rw [List.mem_singleton.mp h]
        exact create_goodTok ht htc hcur
      · rw [if_neg hcurne] at h
        cases h
  | cons p ps ih =>
    intro chunks cur ct hcur hchunks c hc
    rw [paraLoop] at hc
    by_cases hempty : trimL p = []
    · rw [if_pos hempty] at hc
      exact ih _ _ _ hcur hchunks c hc
    · rw [if_neg hempty] at hc
      by_cases hbig : tokLen dp.tok (trimL p) > dp.chunk_size
      · rw [if_pos hbig] at hc
        have hsent := sentLoop_goodTok ht htc (splitSentences (trimL p))
          chunks cur ct
          (splitSentences_pieces hempty (trimmed_trimL p)) hcur hchunks
        exact ih _ _ _ hsent.2 hsent.1 c hc
      · rw [if_neg hbig] at hc
        by_cases hover : ct + tokLen dp.tok (trimL p) > dp.chunk_size
        · rw [if_pos hover] at hc
          refine ih _ _ _ (trimmed_trimL p) ?_ c hc
          intro c' hc'
          rcases List.mem_append.mp hc' with h | h
          · exact hchunks c' h
          · by_cases hcurne : cur ≠ []
            · rw [if_pos hcurne] at h
              rw [List.mem_singleton.mp h]
              exact create_goodTok ht htc hcur
            · rw [if_neg hcurne] at h
              cases h
        · rw [if_neg hover] at hc
          refine ih _ _ _ ?_ hchunks c hc
          by_cases hcurne : cur ≠ []
          · rw [if_pos hcurne]
            exact trimmed_append3 hcur (trimmed_trimL p) hcurne hempty
          · rw [if_neg hcurne]
            exact trimmed_trimL p

theorem chunk_section_goodTok {dp : DP} {sec : PySection} {meta : Dict}
    (ht : dget meta "text" = none) (htc : dget meta "token_count" = none) :
    ∀ c ∈ chunk_section dp sec meta, GoodTok dp c := by
  intro c hc
  unfold chunk_section at hc
  have hregular : ∀ content, c ∈ chunk_regular_content dp content sec meta →
      GoodTok dp c := by
    intro content h
    unfold chunk_regular_content at h
    simp only [dupdate_ite] at h
    have h1 : dget (dupdate (cmText sec) meta) "text" = none := by
      rw [dget_dupdate_base_of_none ht, dget_cmText_text]
    have h2 : dget (dupdate (cmText sec) meta) "token_count" = none := by
      rw [dget_dupdate_base_of_none htc]
      simp [cmText, dget]
    exact paraLoop_goodTok h1 h2 _ _ _ _ trimmed_nil (by intro c' hc'; cases hc')
      c h
  by_cases hmark : containsSub OPEN sec.content = true
  · rw [if_pos hmark] at hc
    rcases List.mem_append.mp hc with h | h
    · rw [chunk_financial_tables_eq] at h
      obtain ⟨l, hl, hcl⟩ := List.mem_flatten.mp h
      obtain ⟨it, _, hit⟩ := List.mem_map.mp hl
      rw [← hit] at hcl
      exact tableOne_goodTok ht htc it c hcl
    · by_cases hres : trimL (removeTableSpans sec.content) ≠ []
      · rw [if_pos hres] at h
        exact hregular _ h
      · rw [if_neg hres] at h
        cases h
  · rw [if_neg hmark] at hc
    by_cases hres : trimL sec.content ≠ []
    · rw [if_pos hres] at hc
      exact hregular _ hc
    · rw [if_neg hres] at hc
      cases hc

/-- C7: for every chunk the structure-aware splitter returns (over any
tokenizer, input text and caller metadata not carrying reserved keys), the
`token_count` field equals the token count of the chunk's own stored
`text` field: every call site hands `_create_chunk` already-stripped text,
so counting the pre-strip argument agrees with the stored trimmed text. -/
theorem c7_token_count_matches_text (dp : DP) (T : Str) (meta : Dict)
    (ht : dget meta "text" = none) (htc : dget meta "token_count" = none) :
    ∀ c ∈ chunk_text_structured dp T meta,
      ∃ t, dget c "text" = some (.s t) ∧
        dget c "token_count" = some (.n (tokLen dp.tok t)) := by
  intro c hc
  unfold chunk_text_structured at hc
  obtain ⟨l, hl, hcl⟩ := List.mem_flatten.mp hc
  obtain ⟨sec, _, hsec⟩ := List.mem_map.mp hl
  rw [← hsec] at hcl
  exact chunk_section_goodTok ht htc c hcl

/-- C7 witness: the statement evaluated on a concrete document and empty
caller metadata, at the first returned chunk. -/
theorem c7_token_count_matches_text_witness :
    ∃ t, dget ((chunk_text_structured dpChar "Hello there world.".data
        []).head!) "text" = some (.s t) ∧
      dget ((chunk_text_structured dpChar "Hello there world.".data
        []).head!) "token_count" = some (.n (tokLen dpChar.tok t)) :=
  c7_token_count_matches_text dpChar "Hello there world.".data []
    (by decide) (by decide) _ (by decide)

theorem rowsLoop_shape {dp : DP} {sec : PySection} {i : Nat} {meta : Dict} :
    ∀ (rs : List Str) (cur : Str) (ct : Nat),
      ∀ c ∈ rowsLoop dp (dupdate (cmTable sec i) meta) rs cur ct,
        ChunkShape dp meta c := by
  intro rs
  induction rs with
  | nil =>
    intro cur ct c hc
    rw [rowsLoop] at hc
    by_cases hcur : trimL cur ≠ []
    · rw [if_pos hcur] at hc
      exact ⟨trimL cur, sec, i, Or.inl (List.mem_singleton.mp hc)⟩
    · rw [if_neg hcur] at hc
      cases hc
  | cons r rs ih =>
    intro cur ct c hc
    rw [rowsLoop] at hc
    by_cases hover : ct + tokLen dp.tok r > dp.chunk_size
    · rw [if_pos hover] at hc
      rcases List.mem_append.mp hc with h | h
      · by_cases hcurne : cur ≠ []
        · rw [if_pos hcurne] at h
          exact ⟨trimL cur, sec, i, Or.inl (List.mem_singleton.mp h)⟩
        · rw [if_neg hcurne] at h
          cases h
      · exact ih _ _ c h
    · rw [if_neg hover] at hc
      exact ih _ _ c hc

theorem sentLoop_shape {dp : DP} {sec : PySection} {meta : Dict} :
    ∀ (ss : List Str) (chunks : List Dict) (cur : Str) (ct : Nat),
      (∀ c ∈ chunks, ChunkShape dp meta c) →
      ∀ c ∈ (sentLoop dp (dupdate (cmText sec) meta) ss chunks cur ct).1,
        ChunkShape dp meta c := by
  intro ss
  induction ss with
  | nil =>
    intro chunks cur ct hchunks c hc
    exact hchunks c hc
  | cons s ss ih =>
    intro chunks cur ct hchunks c hc
    rw [sentLoop] at hc
    by_cases hover : ct + tokLen dp.tok s > dp.chunk_size
    · rw [if_pos hover] at hc
      refine ih _ _ _ ?_ c hc
      intro c' hc'
      rcases List.mem_append.mp hc' with h | h
      · exact hchunks c' h
      · by_cases hcurne : cur ≠ []
        · rw [if_pos hcurne] at h
          exact ⟨cur, sec, 0, Or.inr (List.mem_singleton.mp h)⟩
        · rw [if_neg hcurne] at h
          cases h
    · rw [if_neg hover] at hc
      exact ih _ _ _ hchunks c hc

theorem paraLoop_shape {dp : DP} {sec : PySection} {meta : Dict} :
    ∀ (ps : List Str) (chunks : List Dict) (cur : Str) (ct : Nat),
      (∀ c ∈ chunks, ChunkShape dp meta c) →
      ∀ c ∈ paraLoop dp (dupdate (cmText sec) meta) ps chunks cur ct,
        ChunkShape dp meta c := by
  intro ps
  induction ps with
  | nil =>
    intro chunks cur ct hchunks c hc
    rw [paraLoop] at hc
    rcases List.mem_append.mp hc with h | h
    · exact hchunks c h
    · by_cases hcurne : cur ≠ []
      · rw [if_pos hcurne] at h
        exact ⟨cur, sec, 0, Or.inr (List.mem_singleton.mp h)⟩
      · rw [if_neg hcurne] at h
        cases h
  | cons p ps ih =>
    intro chunks cur ct hchunks c hc
    rw [paraLoop] at hc
    by_cases hempty : trimL p = []
    · rw [if_pos hempty] at hc
      exact ih _ _ _ hchunks c hc
    · rw [if_neg hempty] at hc
      by_cases hbig : tokLen dp.tok (trimL p) > dp.chunk_size
      · rw [if_pos hbig] at hc
        refine ih _ _ _ (sentLoop_shape _ _ _ _ hchunks) c hc
      · rw [if_neg hbig] at hc
        by_cases hover : ct + tokLen dp.tok (trimL p) > dp.chunk_size
        · rw [if_pos hover] at hc
          refine ih _ _ _ ?_ c hc
          intro c' hc'
          rcases List.mem_append.mp hc' with h | h
          · exact hchunks c' h
          · by_cases hcurne : cur ≠ []
            · rw [if_pos hcurne] at h
              exact ⟨cur, sec, 0, Or.inr (List.mem_singleton.mp h)⟩
            · rw [if_neg hcurne] at h
              cases h
        · rw [if_neg hover] at hc
          exact ih _ _ _ hchunks c hc

theorem chunk_text_structured_shape (dp : DP) (T : Str) (meta : Dict) :
    ∀ c ∈ chunk_text_structured dp T meta, ChunkShape dp meta c := by
  intro c hc
  unfold chunk_text_structured at hc
  obtain ⟨l, hl, hcl⟩ := List.mem_flatten.mp hc
  obtain ⟨sec, _, hsec⟩ := List.mem_map.mp hl
  rw [← hsec] at hcl
  unfold chunk_section at hcl
  have hregular : ∀ content, c ∈ chunk_regular_content dp content sec meta →
      ChunkShape dp meta c := by
    intro content h
    unfold chunk_regular_content at h
    simp only [dupdate_ite] at h
    exact paraLoop_shape _ _ _ _ (by intro c' hc'; cases hc') c h
  by_cases hmark : containsSub OPEN sec.content = true
  · rw [if_pos hmark] at hcl
    rcases List.mem_append.mp hcl with h | h
    · rw [chunk_financial_tables_eq] at h
      obtain ⟨l2, hl2, hcl2⟩ := List.mem_flatten.mp h
      obtain ⟨it, _, hit⟩ := List.mem_map.mp hl2
      rw [← hit] at hcl2
      unfold tableOne at hcl2
      simp only [dupdate_ite] at hcl2
      by_cases hempty : trimL it.2 = []
      · rw [if_pos hempty] at hcl2
        cases hcl2
      · rw [if_neg hempty] at hcl2
        by_cases hfit : tokLen dp.tok (trimL it.2) ≤ dp.chunk_size
        · rw [if_pos hfit] at hcl2
          exact ⟨trimL it.2, sec, it.1, Or.inl (List.mem_singleton.mp hcl2)⟩
        · rw [if_neg hfit] at hcl2
          exact rowsLoop_shape _ _ _ c hcl2
    · by_cases hres : trimL (removeTableSpans sec.content) ≠ []
      · rw [if_pos hres] at h
        exact hregular _ h
      · rw [if_neg hres] at h
        cases h
  · rw [if_neg hmark] at hcl
    by_cases hres : trimL sec.content ≠ []
    · rw [if_pos hres] at hcl
      exact hregular _ hcl
    · rw [if_neg hres] at hcl
      cases hcl

theorem createId_base {base meta : Dict} (hcid : dget meta "chunk_id" = none)
    (hbc : dget base "company" = none) (hby : dget base "year" = none)
    (hbi : dget base "chunk_id" = none) :
    createId (dupdate base meta)
      = pyStr ((dgetLast meta "company").getD (.s "unknown".data)) ++ "_".data ++
        pyStr ((dgetLast meta "year").getD (.s "unknown".data)) ++ "_".data ++
        "0".data := by
  unfold createId dgetD
  rw [dget_dupdate, dget_dupdate, dget_dupdate, hbc, hby, hbi,
    (dgetLast_none_iff meta "chunk_id").mpr hcid]
  cases h1 : dgetLast meta "company" <;> cases h2 : dgetLast meta "year" <;>
    simp [Option.orElse, pyStr, intToStr] <;> decide

/-- C6 (amended): every chunk of the structure-aware splitter gets
`id = "{company|unknown}_{year|unknown}_{chunk_id|0}"`, where `chunk_id`
is read from the merged metadata; since neither strategy ever supplies a
`chunk_id`, every chunk of the document carries the SAME ordinal 0 — ids
are constant per document, not distinct increasing ordinals. -/
theorem c6_ids_share_ordinal_zero (dp : DP) (T : Str) (meta : Dict)
    (hcid : dget meta "chunk_id" = none) :
    ∀ c ∈ chunk_text_structured dp T meta,
      dget c "id" = some (.s
        (pyStr ((dgetLast meta "company").getD (.s "unknown".data)) ++
         "_".data ++
         pyStr ((dgetLast meta "year").getD (.s "unknown".data)) ++
         "_".data ++ "0".data)) := by
  intro c hc
  obtain ⟨arg, sec, i, h | h⟩ := chunk_text_structured_shape dp T meta c hc
  · rw [h, dget_create_id, createId_base hcid (by simp [cmTable, dget])
      (by simp [cmTable, dget]) (by simp [cmTable, dget])]
  · rw [h, dget_create_id, createId_base hcid (by simp [cmText, dget])
      (by simp [cmText, dget]) (by simp [cmText, dget])]

/-- C6 counterexample: a document yielding two distinct chunks (one table
chunk, one text chunk) with filename-derived metadata gives both chunks
the id `"AAPL_2023_0"` — ordinals are not distinct or increasing. -/
theorem c6_counterexample :
    ((chunk_text_structured dpChar
        "[FINANCIAL_TABLE]\nRevenue | 100\n[/FINANCIAL_TABLE]\nProse paragraph.".data
        (extract_metadata "AAPL_10K_2023_report.htm".data "2024-01-01".data)).map
      (fun c => dget c "id"))
      = [some (.s "AAPL_2023_0".data), some (.s "AAPL_2023_0".data)] ∧
    ((chunk_text_structured dpChar
        "[FINANCIAL_TABLE]\nRevenue | 100\n[/FINANCIAL_TABLE]\nProse paragraph.".data
        (extract_metadata "AAPL_10K_2023_report.htm".data "2024-01-01".data)).map
      chunkText)
      = ["Revenue | 100".data, "Prose paragraph.".data] := by
  refine ⟨by decide, by decide⟩

/-- C6 witness: the amended id statement at a concrete chunk. -/
theorem c6_ids_share_ordinal_zero_witness :
    dget ((chunk_text_structured dpChar "Some prose text.".data []).head!)
      "id" = some (.s
        (pyStr ((dgetLast ([] : Dict) "company").getD (.s "unknown".data)) ++
         "_".data ++
         pyStr ((dgetLast ([] : Dict) "year").getD (.s "unknown".data)) ++
         "_".data ++ "0".data)) :=
  c6_ids_share_ordinal_zero dpChar "Some prose text.".data [] (by decide) _
    (by decide)

/-! ## C8: table isolation -/

theorem not_hasSub_of_containsSub_false {sep s : Str}
    (hb : containsSub sep s = false) : ¬ HasSub sep s := by
  intro h
  rw [(containsSub_iff sep s).mpr h] at hb
  cases hb

theorem splitSentences_part (p : Str) : ∀ q ∈ splitSentences p, q <:+: p := by
  intro q hq
  simpa using sentGoF_part p.length p [] q hq

theorem joinNL_splitCh (s : Str) : joinNL (splitCh '\n' s) = s ++ ['\n'] := by
  rw [joinNL_eq_joinSep (splitCh '\n' s)
    (show splitCh '\n' s ≠ [] from splitChAux_ne_nil '\n' s []), splitCh_join]

theorem dget_create_content_type_table {dp : DP} {arg : Str} {sec : PySection}
    {i : Nat} {meta : Dict} (hct : dget meta "content_type" = none) :
    dget (create_chunk dp arg (dupdate (cmTable sec i) meta)) "content_type"
      = some (.s "financial_table".data) := by
  rw [dget_create_other (by decide) (by decide) (by decide),
    dgetLast_eq_dget (nodupKeys_dupdate (nodupKeys_cmTable sec i) meta),
    dget_dupdate_base_of_none hct]
  simp [cmTable, dget]

theorem dget_create_content_type_text {dp : DP} {arg : Str} {sec : PySection}
    {meta : Dict} (hct : dget meta "content_type" = none) :
    dget (create_chunk dp arg (dupdate (cmText sec) meta)) "content_type"
      = some (.s "text".data) := by
  rw [dget_create_other (by decide) (by decide) (by decide),
    dgetLast_eq_dget (nodupKeys_dupdate (nodupKeys_cmText sec) meta),
    dget_dupdate_base_of_none hct]
  simp [cmText, dget]

theorem rowsLoop_span {dp : DP} {cm : Dict} (htext : dget cm "text" = none)
    {X : Str} :
    ∀ (rs : List Str) (cur : Str) (ct : Nat) (u : Str),
      u ++ cur ++ joinNL rs = X →
      ∀ c ∈ rowsLoop dp cm rs cur ct, chunkText c <:+: X := by
  intro rs
  induction rs with
  | nil =>
    intro cur ct u hdecomp c hc
    rw [rowsLoop] at hc
    by_cases hcur : trimL cur ≠ []
    · rw [if_pos hcur] at hc
      rw [List.mem_singleton.mp hc, chunkText_create htext, trimL_idem]
      exact ((trimL_part cur).trans ⟨u, joinNL [], hdecomp⟩)
    · rw [if_neg hcur] at hc
      cases hc
  | cons r rs ih =>
    intro cur ct u hdecomp c hc
    rw [rowsLoop] at hc
    have hcurinf : cur <:+: X := ⟨u, joinNL (r :: rs), hdecomp⟩
    by_cases hover : ct + tokLen dp.tok r > dp.chunk_size
    · rw [if_pos hover] at hc
      rcases List.mem_append.mp hc with h | h
      · by_cases hcurne : cur ≠ []
        · rw [if_pos hcurne] at h
          rw [List.mem_singleton.mp h, chunkText_create htext, trimL_idem]
          exact (trimL_part cur).trans hcurinf
        · rw [if_neg hcurne] at h
          cases h
      · refine ih (r ++ ['\n']) _ (u ++ cur) ?_ c h
        rw [← hdecomp, joinNL_cons]
        simp
    · rw [if_neg hover] at hc
      refine ih (cur ++ r ++ ['\n']) _ u ?_ c hc
      rw [← hdecomp, joinNL_cons]
      simp

theorem hasSub_nil {sep : Str} (hs : sep ≠ []) : ¬ HasSub sep [] := by
  rintro ⟨a, b, h⟩
  exact hs (List.append_eq_nil.mp (List.append_eq_nil.mp h.symm).1).2

theorem hasSub_join₂ {sep cur p : Str} {w : Char} (hc : ¬ HasSub sep cur)
    (hw : w ∉ sep) (hp : ¬ HasSub sep p) : ¬ HasSub sep (cur ++ w :: p) := by
  intro h
  rcases hasSub_append_cons h with h | h | h
  · exact hc h
  · exact hw h
  · exact hp h

theorem tableOne_span {dp : DP} {sec : PySection} {meta : Dict}
    (hmeta : dget meta "text" = none) (it : Nat × Str) :
    ∀ c ∈ tableOne dp sec meta it, chunkText c <:+: (trimL it.2 ++ ['\n']) := by
  intro c hc
  rw [tableOne] at hc
  by_cases h0 : trimL it.2 = []
  · rw [if_pos h0] at hc; cases hc
  · rw [if_neg h0] at hc
    simp only [dupdate_ite] at hc
    have htext : dget (dupdate (cmTable sec it.1) meta) "text" = none := by
      rw [dget_dupdate_base_of_none hmeta, dget_cmTable_text]
    by_cases hfit : tokLen dp.tok (trimL it.2) ≤ dp.chunk_size
    · rw [if_pos hfit] at hc
      rw [List.mem_singleton.mp hc, chunkText_create htext, trimL_idem]
      exact (List.prefix_append _ _).isInfix
    · rw [if_neg hfit] at hc
      refine rowsLoop_span htext (splitCh '\n' (trimL it.2)) [] 0 [] ?_ c hc
      simp [joinNL_splitCh]

theorem rowsLoop_mem_create {dp : DP} {cm : Dict} :
    ∀ (rs : List Str) (cur : Str) (ct : Nat),
      ∀ c ∈ rowsLoop dp cm rs cur ct, ∃ arg, c = create_chunk dp arg cm := by
  intro rs
  induction rs with
  | nil =>
    intro cur ct c hc
    rw [rowsLoop] at hc
    by_cases h0 : trimL cur ≠ []
    · rw [if_pos h0] at hc
      exact ⟨trimL cur, List.mem_singleton.mp hc⟩
    · rw [if_neg h0] at hc; cases hc
  | cons r rs ih =>
    intro cur ct c hc
    rw [rowsLoop] at hc
    by_cases hover : ct + tokLen dp.tok r > dp.chunk_size
    · rw [if_pos hover] at hc
      rcases List.mem_append.mp hc with h | h
      · by_cases h0 : cur ≠ []
        · rw [if_pos h0] at h
          exact ⟨trimL cur, List.mem_singleton.mp h⟩
        · rw [if_neg h0] at h; cases h
      · exact ih _ _ c h
    · rw [if_neg hover] at hc
      exact ih _ _ c hc

theorem sentLoop_mem_create {dp : DP} {cm : Dict} :
    ∀ (ss : List Str) (chunks : List Dict) (cur : Str) (ct : Nat),
      ∀ c ∈ (sentLoop dp cm ss chunks cur ct).1,
        c ∈ chunks ∨ ∃ arg, c = create_chunk dp arg cm := by
  intro ss
  induction ss with
  | nil =>
    intro chunks cur ct c hc
    exact Or.inl hc
  | cons s ss ih =>
    intro chunks cur ct c hc
    rw [sentLoop] at hc
    by_cases hover : ct + tokLen dp.tok s > dp.chunk_size
    · rw [if_pos hover] at hc
      rcases ih _ _ _ c hc with h | h
      · rcases List.mem_append.mp h with h2 | h2
        · exact Or.inl h2
        · by_cases h0 : cur ≠ []
          · rw [if_pos h0] at h2
            exact Or.inr ⟨cur, List.mem_singleton.mp h2⟩
          · rw [if_neg h0] at h2; cases h2
      · exact Or.inr h
    · rw [if_neg hover] at hc
      exact ih _ _ _ c hc

theorem paraLoop_mem_create {dp : DP} {cm : Dict} :
    ∀ (ps : List Str) (chunks : List Dict) (cur : Str) (ct : Nat),
      ∀ c ∈ paraLoop dp cm ps chunks cur ct,
        c ∈ chunks ∨ ∃ arg, c = create_chunk dp arg cm := by
  intro ps
  induction ps with
  | nil =>
    intro chunks cur ct c hc
    rw [paraLoop] at hc
    rcases List.mem_append.mp hc with h | h
    · exact Or.inl h
    · by_cases h0 : cur ≠ []
      · rw [if_pos h0] at h
        exact Or.inr ⟨cur, List.mem_singleton.mp h⟩
      · rw [if_neg h0] at h; cases h
  | cons p ps ih =>
    intro chunks cur ct c hc
    rw [paraLoop] at hc
    by_cases hp0 : trimL p = []
    · rw [if_pos hp0] at hc
      exact ih _ _ _ c hc
    · rw [if_neg hp0] at hc
      by_cases hbig : tokLen dp.tok (trimL p) > dp.chunk_size
      · rw [if_pos hbig] at hc
        rcases ih _ _ _ c hc with h | h
        · rcases sentLoop_mem_create _ _ _ _ c h with h2 | h2
          · exact Or.inl h2
          · exact Or.inr h2
        · exact Or.inr h
      · rw [if_neg hbig] at hc
        by_cases hover : ct + tokLen dp.tok (trimL p) > dp.chunk_size
        · rw [if_pos hover] at hc
          rcases ih _ _ _ c hc with h | h
          · rcases List.mem_append.mp h with h2 | h2
            · exact Or.inl h2
            · by_cases h0 : cur ≠ []
              · rw [if_pos h0] at h2
                exact Or.inr ⟨cur, List.mem_singleton.mp h2⟩
              · rw [if_neg h0] at h2; cases h2
          · exact Or.inr h
        · rw [if_neg hover] at hc
          exact ih _ _ _ c hc

theorem flush_noOpen {dp : DP} {cm : Dict} (hcm : dget cm "text" = none)
    {cur : Str} (hcur : ¬ HasSub OPEN cur) :
    ∀ c ∈ (if cur ≠ [] then [create_chunk dp cur cm] else []),
      ¬ HasSub OPEN (chunkText c) := by
  intro c hc
  by_cases h0 : cur ≠ []
  · rw [if_pos h0] at hc
    rw [List.mem_singleton.mp hc, chunkText_create hcm]
    exact fun h => hcur (hasSub_of_part (trimL_part cur) h)
  · rw [if_neg h0] at hc; cases hc

theorem sentLoop_noOpen {dp : DP} {cm : Dict} (hcm : dget cm "text" = none) :
    ∀ (ss : List Str) (chunks : List Dict) (cur : Str) (ct : Nat),
      (∀ s ∈ ss, ¬ HasSub OPEN s) →
      (∀ c ∈ chunks, ¬ HasSub OPEN (chunkText c)) →
      ¬ HasSub OPEN cur →
      (∀ c ∈ (sentLoop dp cm ss chunks cur ct).1,
          ¬ HasSub OPEN (chunkText c)) ∧
      ¬ HasSub OPEN (sentLoop dp cm ss chunks cur ct).2.1 := by
  intro ss
  induction ss with
  | nil =>
    intro chunks cur ct _ hchunks hcur
    rw [sentLoop]
    exact ⟨hchunks, hcur⟩
  | cons s ss ih =>
    intro chunks cur ct hss hchunks hcur
    have hs : ¬ HasSub OPEN s := hss s (List.mem_cons_self _ _)
    have hss' : ∀ x ∈ ss, ¬ HasSub OPEN x :=
      fun x hx => hss x (List.mem_cons_of_mem _ hx)
    rw [sentLoop]
    by_cases hover : ct + tokLen dp.tok s > dp.chunk_size
    · rw [if_pos hover]
      refine ih _ _ _ hss' ?_ hs
      intro c hc
      rcases List.mem_append.mp hc with h | h
      · exact hchunks c h
      · exact flush_noOpen hcm hcur c h
    · rw [if_neg hover]
      refine ih _ _ _ hss' hchunks ?_
      by_cases h0 : cur ≠ []
      · rw [if_pos h0]
        have hjoin : cur ++ " ".data ++ s = cur ++ ' ' :: s := by simp
        rw [hjoin]
        exact hasSub_join₂ hcur (by decide) hs
      · rw [if_neg h0]
        exact hs

theorem paraLoop_noOpen {dp : DP} {cm : Dict} (hcm : dget cm "text" = none) :
    ∀ (ps : List Str) (chunks : List Dict) (cur : Str) (ct : Nat),
      (∀ p ∈ ps, ¬ HasSub OPEN p) →
      (∀ c ∈ chunks, ¬ HasSub OPEN (chunkText c)) →
      ¬ HasSub OPEN cur →
      ∀ c ∈ paraLoop dp cm ps chunks cur ct, ¬ HasSub OPEN (chunkText c) := by
  intro ps
  induction ps with
  | nil =>
    intro chunks cur ct _ hchunks hcur c hc
    rw [paraLoop] at hc
    rcases List.mem_append.mp hc with h | h
    · exact hchunks c h
    · exact flush_noOpen hcm hcur c h
  | cons p ps ih =>
    intro chunks cur ct hps hchunks hcur c hc
    have hp : ¬ HasSub OPEN p := hps p (List.mem_cons_self _ _)
    have hp' : ¬ HasSub OPEN (trimL p) :=
      fun h => hp (hasSub_of_part (trimL_part p) h)
    have hps' : ∀ x ∈ ps, ¬ HasSub OPEN x :=
      fun x hx => hps x (List.mem_cons_of_mem _ hx)
    rw [paraLoop] at hc
    by_cases hp0 : trimL p = []
    · rw [if_pos hp0] at hc
      exact ih _ _ _ hps' hchunks hcur c hc
    · rw [if_neg hp0] at hc
      by_cases hbig : tokLen dp.tok (trimL p) > dp.chunk_size
      · rw [if_pos hbig] at hc
        have hsent : ∀ s ∈ splitSentences (trimL p), ¬ HasSub OPEN s :=
          fun s hs h =>
            hp' (hasSub_of_part (splitSentences_part (trimL p) s hs) h)
        obtain ⟨h1, h2⟩ :=
          sentLoop_noOpen hcm (splitSentences (trimL p)) chunks cur ct
            hsent hchunks hcur
        exact ih _ _ _ hps' h1 h2 c hc
      · rw [if_neg hbig] at hc
        by_cases hover : ct + tokLen dp.tok (trimL p) > dp.chunk_size
        · rw [if_pos hover] at hc
          refine ih _ _ _ hps' ?_ hp' c hc
          intro d hd
          rcases List.mem_append.mp hd with h | h
          · exact hchunks d h
          · exact flush_noOpen hcm hcur d h
        · rw [if_neg hover] at hc
          refine ih _ _ _ hps' hchunks ?_ c hc
          by_cases h0 : cur ≠ []
          · rw [if_pos h0]
            have hjoin : cur ++ "\n\n".data ++ trimL p
                = cur ++ '\n' :: ('\n' :: trimL p) := by simp
            rw [hjoin]
            refine hasSub_join₂ hcur (by decide) ?_
            have := @hasSub_join₂ OPEN [] (trimL p) '\n' (hasSub_nil (by decide))
              (show '\n' ∉ OPEN from by decide) hp'
            simpa using this
          · rw [if_neg h0]
            exact hp'

theorem tableOne_ct {dp : DP} {sec : PySection} {meta : Dict}
    (hct : dget meta "content_type" = none) (it : Nat × Str) :
    ∀ c ∈ tableOne dp sec meta it,
      dget c "content_type" = some (.s "financial_table".data) := by
  intro c hc
  rw [tableOne] at hc
  by_cases h0 : trimL it.2 = []
  · rw [if_pos h0] at hc; cases hc
  · rw [if_neg h0] at hc
    simp only [dupdate_ite] at hc
    by_cases hfit : tokLen dp.tok (trimL it.2) ≤ dp.chunk_size
    · rw [if_pos hfit] at hc
      rw [List.mem_singleton.mp hc]
      exact dget_create_content_type_table hct
    · rw [if_neg hfit] at hc
      obtain ⟨arg, rfl⟩ := rowsLoop_mem_create _ _ _ c hc
      exact dget_create_content_type_table hct

theorem chunk_financial_tables_ct {dp : DP} {content : Str} {sec : PySection}
    {meta : Dict} (hct : dget meta "content_type" = none) :
    ∀ c ∈ chunk_financial_tables dp content sec meta,
      dget c "content_type" = some (.s "financial_table".data) := by
  intro c hc
  rw [chunk_financial_tables_eq] at hc
  obtain ⟨l, hl, hc⟩ := List.mem_flatten.mp hc
  obtain ⟨it, _, rfl⟩ := List.mem_map.mp hl
  exact tableOne_ct hct it c hc

theorem chunk_financial_tables_span {dp : DP} {content : Str} {sec : PySection}
    {meta : Dict} (hmeta : dget meta "text" = none) :
    ∀ c ∈ chunk_financial_tables dp content sec meta,
      ∃ span ∈ tableSpans content, chunkText c <:+: (trimL span ++ ['\n']) := by
  intro c hc
  rw [chunk_financial_tables_eq] at hc
  obtain ⟨l, hl, hc⟩ := List.mem_flatten.mp hc
  obtain ⟨it, hit, rfl⟩ := List.mem_map.mp hl
  have hmem : it.2 ∈ tableSpans content := by
    have := List.mem_map_of_mem Prod.snd hit
    rwa [List.enum_map_snd] at this
  exact ⟨it.2, hmem, tableOne_span hmeta it c hc⟩

theorem chunk_regular_content_ct {dp : DP} {content : Str} {sec : PySection}
    {meta : Dict} (hct : dget meta "content_type" = none) :
    ∀ c ∈ chunk_regular_content dp content sec meta,
      dget c "content_type" = some (.s "text".data) := by
  intro c hc
  rw [chunk_regular_content] at hc
  simp only [dupdate_ite] at hc
  rcases paraLoop_mem_create _ _ _ _ c hc with h | ⟨arg, rfl⟩
  · cases h
  · exact dget_create_content_type_text hct

theorem chunk_regular_content_noOpen {dp : DP} {content : Str} {sec : PySection}
    {meta : Dict} (hmeta : dget meta "text" = none)
    (h : ¬ HasSub OPEN content) :
    ∀ c ∈ chunk_regular_content dp content sec meta,
      ¬ HasSub OPEN (chunkText c) := by
  intro c hc
  rw [chunk_regular_content] at hc
  simp only [dupdate_ite] at hc
  have hcm : dget (dupdate (cmText sec) meta) "text" = none := by
    rw [dget_dupdate_base_of_none hmeta, dget_cmText_text]
  refine paraLoop_noOpen hcm (splitNN content) [] [] 0 ?_ ?_
    (hasSub_nil (by decide)) c hc
  · exact fun p hp hs => h (hasSub_of_part (splitNN_part content p hp) hs)
  · intro d hd; cases hd

/-- C8 counterexample: on a document whose `[FINANCIAL_TABLE]` marker is never
closed, the structure-aware splitter emits a chunk tagged
`content_type = "text"` whose text still contains the `[FINANCIAL_TABLE]`
marker, contradicting the claimed isolation invariant. -/
theorem c8_counterexample :
    ((chunk_text_structured dpChar c8Doc []).map
        (fun c => (dget c "content_type", containsSub OPEN (chunkText c))))
      = [(some (.s "text".data), true)] := by decide

/-- C8 (amended): assume the caller metadata sets neither `content_type` nor
`text`, and assume the section body left after removing all *balanced* table
spans contains no `[FINANCIAL_TABLE]` marker (this holds whenever every
marker is balanced, but can fail for an unbalanced marker — see the
counterexample). Then (a) no chunk tagged `content_type = "text"` contains
the `[FINANCIAL_TABLE]` marker, and (b) every chunk tagged
`content_type = "financial_table"` has text drawn from a single extracted
table span (it is an infix of that trimmed span), so table and prose content
are not double-chunked. -/
theorem c8_table_isolation (dp : DP) (sec : PySection) (meta : Dict)
    (hct : dget meta "content_type" = none) (htx : dget meta "text" = none)
    (hres : ¬ HasSub OPEN (removeTableSpans sec.content)) :
    (∀ c ∈ chunk_section dp sec meta,
        dget c "content_type" = some (.s "text".data) →
        ¬ HasSub OPEN (chunkText c)) ∧
    (∀ c ∈ chunk_section dp sec meta,
        dget c "content_type" = some (.s "financial_table".data) →
        ∃ span ∈ tableSpans sec.content,
          chunkText c <:+: (trimL span ++ ['\n'])) := by
  constructor
  · intro c hc hctv
    simp only [chunk_section] at hc
    by_cases hm : containsSub OPEN sec.content
    · simp only [hm, if_true] at hc
      rcases List.mem_append.mp hc with h | h
      · rw [chunk_financial_tables_ct hct c h] at hctv
        exact absurd hctv (by decide)
      · by_cases hres0 : trimL (removeTableSpans sec.content) ≠ []
        · rw [if_pos hres0] at h
          exact chunk_regular_content_noOpen htx hres c h
        · rw [if_neg hres0] at h; cases h
    · have hm' : containsSub OPEN sec.content = false := by simpa using hm
      simp only [hm', if_false] at hc
      have hcontent : ¬ HasSub OPEN sec.content := by
        rw [← removeTableSpans_of_not_contains hm']
        exact hres
      by_cases h0 : trimL sec.content ≠ []
      · rw [if_pos h0] at hc
        exact chunk_regular_content_noOpen htx hcontent c hc
      · rw [if_neg h0] at hc; cases hc
  · intro c hc hctv
    simp only [chunk_section] at hc
    by_cases hm : containsSub OPEN sec.content
    · simp only [hm, if_true] at hc
      rcases List.mem_append.mp hc with h | h
      · exact chunk_financial_tables_span htx c h
      · by_cases hres0 : trimL (removeTableSpans sec.content) ≠ []
        · rw [if_pos hres0] at h
          rw [chunk_regular_content_ct hct c h] at hctv
          exact absurd hctv (by decide)
        · rw [if_neg hres0] at h; cases h
    · have hm' : containsSub OPEN sec.content = false := by simpa using hm
      simp only [hm', if_false] at hc
      by_cases h0 : trimL sec.content ≠ []
      · rw [if_pos h0] at hc
        rw [chunk_regular_content_ct hct c hc] at hctv
        exact absurd hctv (by decide)
      · rw [if_neg h0] at hc; cases hc

/-- C8 witness: on a concrete section with one balanced table block and a
prose tail, the amended theorem applies — the emitted text chunk is free of
the table marker and the table chunk's text sits inside the extracted span. -/
theorem c8_table_isolation_witness :
    ¬ HasSub OPEN (chunkText ((chunk_section dpChar c8Sec []).getLast!)) ∧
    ∃ span ∈ tableSpans c8Sec.content,
      chunkText ((chunk_section dpChar c8Sec []).head!)
        <:+: (trimL span ++ ['\n']) := by
  constructor
  · exact (c8_table_isolation dpChar c8Sec [] (by decide) (by decide)
      (not_hasSub_of_containsSub_false (by decide))).1 _ (by decide) (by decide)
  · exact (c8_table_isolation dpChar c8Sec [] (by decide) (by decide)
      (not_hasSub_of_containsSub_false (by decide))).2 _ (by decide) (by decide)

theorem mkJoin_nil (u : Str) : mkJoin u [] = u := by simp [mkJoin]

theorem mkJoin_snoc (u : Str) (rest : List (Str × Str)) (sep v : Str) :
    mkJoin u (rest ++ [(sep, v)]) = mkJoin u rest ++ sep ++ v := by
  simp [mkJoin]

theorem chunkFromUnits_of_buf {dp : DP} {units : List Str} {cur : Str}
    {ct : Nat} (h : BufFromUnits dp units cur ct) :
    ChunkFromUnits dp units (trimL cur) := by
  obtain ⟨u, rest, hu, hrest, hcur, hsum, hb⟩ := h
  exact ⟨u, rest, hu, hrest, by rw [hcur],
    hb.imp (fun h2 => h2) (fun h2 => hsum.trans h2)⟩

theorem bufFromUnits_single {dp : DP} {units : List Str} {u : Str}
    (hu : u ∈ units) {ct : Nat} (hct : tokLen dp.tok u ≤ ct) :
    BufFromUnits dp units u ct :=
  ⟨u, [], hu, by simp, (mkJoin_nil u).symm, by simpa using hct, Or.inl rfl⟩

theorem bufFromUnits_extend {dp : DP} {units : List Str} {cur : Str}
    {ct : Nat} (h : BufFromUnits dp units cur ct) {sep v : Str}
    (hsep : SepOk (sep, v)) (hv : v ∈ units) {ct' : Nat}
    (hct : ct + tokLen dp.tok v ≤ ct') (hbound : ct' ≤ dp.chunk_size) :
    BufFromUnits dp units (cur ++ sep ++ v) ct' := by
  obtain ⟨u, rest, hu, hrest, hcur, hsum, _⟩ := h
  refine ⟨u, rest ++ [(sep, v)], hu, ?_, ?_, ?_, Or.inr hbound⟩
  · intro sv hsv
    rcases List.mem_append.mp hsv with h2 | h2
    · exact hrest sv h2
    · rw [List.mem_singleton.mp h2]
      exact ⟨hsep, hv⟩
  · rw [mkJoin_snoc, ← hcur]
  · simp only [List.map_append, List.sum_append, List.map_cons, List.map_nil,
      List.sum_cons, List.sum_nil]
    omega

theorem rowsLoop_units {dp : DP} {cm : Dict} (hcm : dget cm "text" = none)
    {units : List Str} :
    ∀ (rs : List Str) (cur : Str) (ct : Nat),
      (∀ r ∈ rs, r ∈ units) →
      (cur = [] ∨ ∃ body, cur = body ++ ['\n'] ∧ BufFromUnits dp units body ct) →
      ∀ c ∈ rowsLoop dp cm rs cur ct,
        ChunkFromUnits dp units (chunkText c) := by
  intro rs
  induction rs with
  | nil =>
    intro cur ct _ hinv c hc
    rw [rowsLoop] at hc
    by_cases h0 : trimL cur ≠ []
    · rw [if_pos h0] at hc
      rcases hinv with rfl | ⟨body, rfl, hbuf⟩
      · exact absurd (by decide) h0
      · rw [List.mem_singleton.mp hc, chunkText_create hcm, trimL_idem,
          trimL_append_ws_right (by decide) body]
        exact chunkFromUnits_of_buf hbuf
    · rw [if_neg h0] at hc; cases hc
  | cons r rs ih =>
    intro cur ct hrs hinv c hc
    have hr : r ∈ units := hrs r (List.mem_cons_self _ _)
    have hrs' : ∀ x ∈ rs, x ∈ units :=
      fun x hx => hrs x (List.mem_cons_of_mem _ hx)
    rw [rowsLoop] at hc
    by_cases hover : ct + tokLen dp.tok r > dp.chunk_size
    · rw [if_pos hover] at hc
      rcases List.mem_append.mp hc with h | h
      · by_cases h0 : cur ≠ []
        · rw [if_pos h0] at h
          rcases hinv with rfl | ⟨body, rfl, hbuf⟩
          · exact absurd rfl h0
          · rw [List.mem_singleton.mp h, chunkText_create hcm, trimL_idem,
              trimL_append_ws_right (by decide) body]
            exact chunkFromUnits_of_buf hbuf
        · rw [if_neg h0] at h; cases h
      · refine ih _ _ hrs' (Or.inr ⟨r, rfl, bufFromUnits_single hr (le_refl _)⟩) c h
    · rw [if_neg hover] at hc
      rcases hinv with rfl | ⟨body, rfl, hbuf⟩
      · refine ih _ _ hrs' (Or.inr ⟨r, by simp, ?_⟩) c hc
        exact bufFromUnits_single hr (Nat.le_add_left _ ct)
      · refine ih _ _ hrs' (Or.inr ⟨body ++ ['\n'] ++ r, by simp, ?_⟩) c hc
        exact bufFromUnits_extend hbuf (Or.inr (Or.inl rfl)) hr (le_refl _)
          (Nat.le_of_not_lt hover)

theorem sentLoop_units {dp : DP} {cm : Dict} (hcm : dget cm "text" = none)
    {units : List Str} :
    ∀ (ss : List Str) (chunks : List Dict) (cur : Str) (ct : Nat),
      (∀ s ∈ ss, s ∈ units) →
      (∀ c ∈ chunks, ChunkFromUnits dp units (chunkText c)) →
      (cur = [] ∨ BufFromUnits dp units cur ct) →
      (∀ c ∈ (sentLoop dp cm ss chunks cur ct).1,
          ChunkFromUnits dp units (chunkText c)) ∧
      ((sentLoop dp cm ss chunks cur ct).2.1 = [] ∨
        BufFromUnits dp units (sentLoop dp cm ss chunks cur ct).2.1
          (sentLoop dp cm ss chunks cur ct).2.2) := by
  intro ss
  induction ss with
  | nil =>
    intro chunks cur ct _ hchunks hinv
    rw [sentLoop]
    exact ⟨hchunks, hinv⟩
  | cons s ss ih =>
    intro chunks cur ct hss hchunks hinv
    have hs : s ∈ units := hss s (List.mem_cons_self _ _)
    have hss' : ∀ x ∈ ss, x ∈ units :=
      fun x hx => hss x (List.mem_cons_of_mem _ hx)
    rw [sentLoop]
    by_cases hover : ct + tokLen dp.tok s > dp.chunk_size
    · rw [if_pos hover]
      refine ih _ _ _ hss' ?_ (Or.inr (bufFromUnits_single hs (le_refl _)))
      intro c hc
      rcases List.mem_append.mp hc with h | h
      · exact hchunks c h
      · by_cases h0 : cur ≠ []
        · rw [if_pos h0] at h
          rcases hinv with rfl | hbuf
          · exact absurd rfl h0
          · rw [List.mem_singleton.mp h, chunkText_create hcm]
            exact chunkFromUnits_of_buf hbuf
        · rw [if_neg h0] at h; cases h
    · rw [if_neg hover]
      refine ih _ _ _ hss' hchunks (Or.inr ?_)
      by_cases h0 : cur ≠ []
      · rw [if_pos h0]
        rcases hinv with rfl | hbuf
        · exact absurd rfl h0
        · exact bufFromUnits_extend hbuf (Or.inl rfl) hs (le_refl _)
            (Nat.le_of_not_lt hover)
      · rw [if_neg h0]
        exact bufFromUnits_single hs (Nat.le_add_left _ ct)

theorem paraLoop_units {dp : DP} {cm : Dict} (hcm : dget cm "text" = none)
    {units : List Str} :
    ∀ (ps : List Str) (chunks : List Dict) (cur : Str) (ct : Nat),
      (∀ p ∈ ps, trimL p ∈ units ∧
        ∀ s ∈ splitSentences (trimL p), s ∈ units) →
      (∀ c ∈ chunks, ChunkFromUnits dp units (chunkText c)) →
      (cur = [] ∨ BufFromUnits dp units cur ct) →
      ∀ c ∈ paraLoop dp cm ps chunks cur ct,
        ChunkFromUnits dp units (chunkText c) := by
  intro ps
  induction ps with
  | nil =>
    intro chunks cur ct _ hchunks hinv c hc
    rw [paraLoop] at hc
    rcases List.mem_append.mp hc with h | h
    · exact hchunks c h
    · by_cases h0 : cur ≠ []
      · rw [if_pos h0] at h
        rcases hinv with rfl | hbuf
        · exact absurd rfl h0
        · rw [List.mem_singleton.mp h, chunkText_create hcm]
          exact chunkFromUnits_of_buf hbuf
      · rw [if_neg h0] at h; cases h
  | cons p ps ih =>
    intro chunks cur ct hps hchunks hinv c hc
    have hp : trimL p ∈ units ∧ ∀ s ∈ splitSentences (trimL p), s ∈ units :=
      hps p (List.mem_cons_self _ _)
    have hps' : ∀ x ∈ ps, trimL x ∈ units ∧
        ∀ s ∈ splitSentences (trimL x), s ∈ units :=
      fun x hx => hps x (List.mem_cons_of_mem _ hx)
    rw [paraLoop] at hc
    by_cases hp0 : trimL p = []
    · rw [if_pos hp0] at hc
      exact ih _ _ _ hps' hchunks hinv c hc
    · rw [if_neg hp0] at hc
      by_cases hbig : tokLen dp.tok (trimL p) > dp.chunk_size
      · rw [if_pos hbig] at hc
        obtain ⟨h1, h2⟩ := sentLoop_units hcm (splitSentences (trimL p))
          chunks cur ct hp.2 hchunks hinv
        exact ih _ _ _ hps' h1 h2 c hc
      · rw [if_neg hbig] at hc
        by_cases hover : ct + tokLen dp.tok (trimL p) > dp.chunk_size
        · rw [if_pos hover] at hc
          refine ih _ _ _ hps' ?_
            (Or.inr (bufFromUnits_single hp.1 (le_refl _))) c hc
          intro d hd
          rcases List.mem_append.mp hd with h | h
          · exact hchunks d h
          · by_cases h0 : cur ≠ []
            · rw [if_pos h0] at h
              rcases hinv with rfl | hbuf
              · exact absurd rfl h0
              · rw [List.mem_singleton.mp h, chunkText_create hcm]
                exact chunkFromUnits_of_buf hbuf
            · rw [if_neg h0] at h; cases h
        · rw [if_neg hover] at hc
          refine ih _ _ _ hps' hchunks (Or.inr ?_) c hc
          by_cases h0 : cur ≠ []
          · rw [if_pos h0]
            rcases hinv with rfl | hbuf
            · exact absurd rfl h0
            · exact bufFromUnits_extend hbuf (Or.inr (Or.inr rfl)) hp.1
                (le_refl _) (Nat.le_of_not_lt hover)
          · rw [if_neg h0]
            exact bufFromUnits_single hp.1 (Nat.le_add_left _ ct)

theorem chunk_regular_content_units {dp : DP} {content : Str}
    {sec : PySection} {meta : Dict} (htx : dget meta "text" = none)
    {units : List Str} (hsub : ∀ x ∈ proseUnits content, x ∈ units) :
    ∀ c ∈ chunk_regular_content dp content sec meta,
      ChunkFromUnits dp units (chunkText c) := by
  intro c hc
  rw [chunk_regular_content] at hc
  simp only [dupdate_ite] at hc
  have hcm : dget (dupdate (cmText sec) meta) "text" = none := by
    rw [dget_dupdate_base_of_none htx, dget_cmText_text]
  refine paraLoop_units hcm (splitNN content) [] [] 0 ?_ ?_ (Or.inl rfl) c hc
  · intro p hpmem
    have hgrp : trimL p :: splitSentences (trimL p)
        ∈ (splitNN content).map (fun q => trimL q :: splitSentences (trimL q)) :=
      List.mem_map_of_mem _ hpmem
    constructor
    · exact hsub _ (List.mem_flatten.mpr ⟨_, hgrp, List.mem_cons_self _ _⟩)
    · intro s hsmem
      exact hsub _ (List.mem_flatten.mpr ⟨_, hgrp, List.mem_cons_of_mem _ hsmem⟩)
  · intro d hd; cases hd

theorem tableOne_units {dp : DP} {sec : PySection} {meta : Dict}
    (hmeta : dget meta "text" = none) {units : List Str} (it : Nat × Str)
    (hsub : ∀ x ∈ splitCh '\n' (trimL it.2), x ∈ units) :
    ∀ c ∈ tableOne dp sec meta it,
      tokLen dp.tok (chunkText c) ≤ dp.chunk_size
      ∨ ChunkFromUnits dp units (chunkText c) := by
  intro c hc
  rw [tableOne] at hc
  by_cases h0 : trimL it.2 = []
  · rw [if_pos h0] at hc; cases hc
  · rw [if_neg h0] at hc
    simp only [dupdate_ite] at hc
    have htext : dget (dupdate (cmTable sec it.1) meta) "text" = none := by
      rw [dget_dupdate_base_of_none hmeta, dget_cmTable_text]
    by_cases hfit : tokLen dp.tok (trimL it.2) ≤ dp.chunk_size
    · rw [if_pos hfit] at hc
      rw [List.mem_singleton.mp hc, chunkText_create htext, trimL_idem]
      exact Or.inl hfit
    · rw [if_neg hfit] at hc
      exact Or.inr (rowsLoop_units htext _ [] 0 hsub (Or.inl rfl) c hc)

/-- C4 counterexample: with chunk_size 10, a table of two 5-token rows is
packed into one chunk (5 + 5 ≤ 10 passes the pre-check), but the stored
`token_count` re-tokenizes the newline-joined text and comes out 11 > 10.
The chunk wraps two indivisible units, not one, so it falls outside the
claim's single-oversized-unit exception. -/
theorem c4_counterexample :
    (chunk_section dpC4 c4Sec []).map
        (fun c => (chunkText c, dget c "token_count"))
      = [("abcde\nfghij".data, some (.n 11))] ∧
    dpC4.chunk_size = 10 ∧
    splitCh '\n' "abcde\nfghij".data = ["abcde".data, "fghij".data] ∧
    tokLen dpC4.tok "abcde".data = 5 ∧ tokLen dpC4.tok "fghij".data = 5 := by
  decide

/-- C4 (amended): every chunk the structure-aware splitter emits for a
section either has `token_count` within `chunk_size`, or is assembled from
whole indivisible units (table rows / paragraphs / sentences) of the
section — a single unit emitted whole even when oversized, or several units
whose own token counts sum within the bound, the accumulation check
ignoring the join separators that the stored `token_count` re-tokenizes
(so `token_count` itself may exceed the bound on a multi-unit chunk). -/
theorem c4_token_bound_amended (dp : DP) (sec : PySection) (meta : Dict)
    (htx : dget meta "text" = none) :
    ∀ c ∈ chunk_section dp sec meta,
      tokLen dp.tok (chunkText c) ≤ dp.chunk_size
      ∨ ChunkFromUnits dp (sectionUnits sec) (chunkText c) := by
  intro c hc
  simp only [chunk_section] at hc
  by_cases hm : containsSub OPEN sec.content
  · simp only [hm, if_true] at hc
    rcases List.mem_append.mp hc with h | h
    · rw [chunk_financial_tables_eq] at h
      obtain ⟨l, hl, h⟩ := List.mem_flatten.mp h
      obtain ⟨it, hit, rfl⟩ := List.mem_map.mp hl
      have hspan : it.2 ∈ tableSpans sec.content := by
        have := List.mem_map_of_mem Prod.snd hit
        rwa [List.enum_map_snd] at this
      refine tableOne_units htx it ?_ c h
      intro x hx
      have hxt : x ∈ tableUnits sec.content := by
        refine List.mem_flatten.mpr ⟨_, List.mem_map_of_mem _ hspan, hx⟩
      rw [sectionUnits, if_pos hm]
      exact List.mem_append_left _ hxt
    · by_cases hres0 : trimL (removeTableSpans sec.content) ≠ []
      · rw [if_pos hres0] at h
        refine Or.inr (chunk_regular_content_units htx ?_ c h)
        intro x hx
        rw [sectionUnits, if_pos hm]
        exact List.mem_append_right _ hx
      · rw [if_neg hres0] at h; cases h
  · have hm' : containsSub OPEN sec.content = false := by simpa using hm
    simp only [hm', if_false] at hc
    by_cases h0 : trimL sec.content ≠ []
    · rw [if_pos h0] at hc
      refine Or.inr (chunk_regular_content_units htx ?_ c hc)
      intro x hx
      rw [sectionUnits, if_neg (by simp [hm'])]
      exact hx
    · rw [if_neg h0] at hc; cases hc

/-- C4 witness: on the two-row table section the amended theorem applies to
the one emitted chunk (whose token_count is 11 > 10). -/
theorem c4_token_bound_amended_witness :
    tokLen dpC4.tok (chunkText ((chunk_section dpC4 c4Sec []).head!))
        ≤ dpC4.chunk_size
    ∨ ChunkFromUnits dpC4 (sectionUnits c4Sec)
        (chunkText ((chunk_section dpC4 c4Sec []).head!)) :=
  c4_token_bound_amended dpC4 c4Sec [] (by decide) _ (by decide)
